import Mathlib

/-
Verification development for the log-linear model trainer in opt.py.

The source program fits a log-linear (maximum-entropy) model: a frequency
table maps each LHS token to RHS alternatives with observed counts, a
feature model maps each (LHS, RHS) rule to a feature vector, and training
minimizes an L2-penalized negative log-likelihood.  Below the data model
and the operations of opt.py are shallowly embedded: Python dicts become
insertion-ordered association lists, numpy arrays become Lean lists,
float arithmetic becomes exact real (or, where the claims are purely
structural, arbitrary `DecidableEq`) arithmetic, and raised/caught Python
exceptions become `Except` values.
-/

set_option autoImplicit false

universe u v

/-- Association-list lookup returning the value of the first matching key;
this models lookup in a Python dict (keys are unique in a dict, so the
first match is the only one). -/
def alookup {α : Type u} {β : Type v} [DecidableEq α] : List (α × β) → α → Option β
  | [], _ => none
  | (a, b) :: t, x => if a = x then some b else alookup t x

/-- Tokens are strings; an RHS is an ordered sequence of tokens. -/
abbrev Lhs := String

/-- Right-hand side of a rule: an ordered token sequence. -/
abbrev Rhs := List String

/-- One row of the dense model's rule table: the mapping from RHSs of a
fixed LHS to their feature vectors, in insertion order (a Python dict). -/
abbrev RuleRow (R : Type u) := List (Rhs × List R)

/-- The dense model's rule table `self._rules`: a mapping from LHSs to rows,
in insertion order (a Python defaultdict of dicts). -/
abbrev Rules (R : Type u) := List (Lhs × RuleRow R)

/-- One input record for dense-model construction: (lhs, rhs, featurevector),
as produced by the parser from a training-file line. -/
abbrev Triple (R : Type u) := Lhs × Rhs × List R

/-- Errors raised during dense model construction in
LogLinModelFromFile.__init__.  The two checkpoints are the Python
assertions with messages "Mismatching dimensions" and
"Mismatching features for lhs ... and rhs ...". -/
inductive BuildError : Type where
  | dimensionMismatch : BuildError
  | featureMismatch : BuildError
deriving DecidableEq, Repr

/-- Lookup of the feature vector stored for a pair, i.e.
`self._rules[lhs].get(rhs, None)` (without the defaultdict side effect,
which is irrelevant inside `__init__` because a new row is written to the
same key immediately afterwards). -/
def getFeat {R : Type u} [DecidableEq R] (rules : Rules R) (x : Lhs) (r : Rhs) :
    Option (List R) :=
  (alookup rules x).bind (fun row => alookup row r)

/-- Store `self._rules[lhs][rhs] = feats`: append the RHS entry to the row
of `lhs` if that LHS is present, else append a fresh row at the end
(Python dicts preserve insertion order). -/
def addPair {R : Type u} [DecidableEq R] : Rules R → Lhs → Rhs → List R → Rules R
  | [], x, r, f => [(x, [(r, f)])]
  | (l, row) :: rest, x, r, f =>
    if l = x then (l, row ++ [(r, f)]) :: rest else (l, row) :: addPair rest x r f

/-- Process one triple's feature-mismatch check and store, the second half
of the loop body of LogLinModelFromFile.__init__: a repeated (lhs, rhs)
pair with a different stored vector fails, an equal repeat is absorbed,
a new pair is stored. -/
def insertTriple {R : Type u} [DecidableEq R] (rules : Rules R) (t : Triple R) :
    Except BuildError (Rules R) :=
  match getFeat rules t.1 t.2.1 with
  | some old => if old = t.2.2 then .ok rules else .error .featureMismatch
  | none => .ok (addPair rules t.1 t.2.1 t.2.2)

/-- One full iteration of the construction loop of
LogLinModelFromFile.__init__: first the dimension check against
`self._dim` (set from the first triple), then the feature check/store. -/
def denseStep {R : Type u} [DecidableEq R] (st : Option Nat × Rules R) (t : Triple R) :
    Except BuildError (Option Nat × Rules R) :=
  match st.1 with
  | none => (insertTriple st.2 t).map (fun rules => (some t.2.2.length, rules))
  | some d =>
    if t.2.2.length = d then (insertTriple st.2 t).map (fun rules => (some d, rules))
    else .error .dimensionMismatch

/-- LogLinModelFromFile.__init__: fold the construction loop over the input
triples, starting from `self._dim = None` and an empty rule table.  The
result carries the final `_dim` and `_rules`. -/
def denseInit {R : Type u} [DecidableEq R] (inp : List (Triple R)) :
    Except BuildError (Option Nat × Rules R) :=
  inp.foldlM denseStep (none, ([] : Rules R))

/-- LogLinModelFromFile.lhss: the keys of `self._rules`. -/
def lhssDense {R : Type u} (st : Rules R) : List Lhs := st.map Prod.fst

/-- LogLinModelFromFile.rhss: `self._rules[lhs].keys()`.  Because
`self._rules` is a defaultdict, reading an absent LHS inserts an empty row
for it; the returned pair is (value, rule table after the call). -/
def rhssDense {R : Type u} [DecidableEq R] (st : Rules R) (x : Lhs) :
    List Rhs × Rules R :=
  match alookup st x with
  | some row => (row.map Prod.fst, st)
  | none => ([], st ++ [(x, [])])

/-- LogLinModelFromFile.featvec: `self._rules[lhs][rhs]`.  An absent LHS
inserts an empty row (defaultdict) and the inner plain-dict lookup
fails (`none` models the uncaught KeyError); the returned pair is
(value, rule table after the call). -/
def featvecDense {R : Type u} [DecidableEq R] (st : Rules R) (x : Lhs) (r : Rhs) :
    Option (List R) × Rules R :=
  match alookup st x with
  | some row => (alookup row r, st)
  | none => (none, st ++ [(x, [])])

/-- Consistency of repeated pairs in a construction input: any two triples
carrying the same (lhs, rhs) pair carry equal feature vectors. -/
def FeatConsistent {R : Type u} (inp : List (Triple R)) : Prop :=
  ∀ t1 ∈ inp, ∀ t2 ∈ inp, t1.1 = t2.1 → t1.2.1 = t2.2.1 → t1.2.2 = t2.2.2

/-- Every feature vector stored in the rule table agrees with every triple
of the same (lhs, rhs) pair in the given list; the invariant carried
through the construction fold. -/
def StoredOK {R : Type u} [DecidableEq R] (rules : Rules R) (inp : List (Triple R)) : Prop :=
  ∀ x r f, getFeat rules x r = some f →
    ∀ t ∈ inp, t.1 = x → t.2.1 = r → t.2.2 = f

/-- Number of feature-vector entries stored in the table for one
(lhs, rhs) pair, counting across all rows and row entries. -/
def countEntries {R : Type u} [DecidableEq R] (rules : Rules R) (x : Lhs) (r : Rhs) : Nat :=
  (rules.map (fun lr =>
    if lr.1 = x then (lr.2.filter (fun yf => yf.1 = r)).length else 0)).sum

/-- Keys are unique at both levels of the rule table, as they are in the
Python dict-of-dicts it models. -/
def NodupKeys {R : Type u} (rules : Rules R) : Prop :=
  (rules.map Prod.fst).Nodup ∧ ∀ lr ∈ rules, (lr.2.map Prod.fst).Nodup

/-- A rule of the indicator ("basic") model: an (LHS, RHS) pair. -/
abbrev Rule := Lhs × Rhs

/-- Python `list.index` for a present element: the position of the first
occurrence (junk value `list.length` when the element is absent, where the
Python call would raise ValueError). -/
def find_index_pure : List Rule → Rule → Nat
  | [], _ => 0
  | q :: t, p => if q = p then 0 else find_index_pure t p + 1

/-- LogLinModelBasic.dim: the length of `self._rulelist`. -/
def dimBasic (rl : List Rule) : Nat := rl.length

/-- LogLinModelBasic.lhss: `list(set([lhs for (lhs,rhs) in self._rulelist]))`;
set order is unspecified in Python, so any duplicate-free enumeration of
the LHSs is faithful. -/
def lhssBasic (rl : List Rule) : List Lhs := (rl.map Prod.fst).dedup

/-- LogLinModelBasic.rhss:
`list(set([rhs for (lhs,rhs) in self._rulelist if x == lhs]))`. -/
def rhssBasic (rl : List Rule) (x : Lhs) : List Rhs :=
  ((rl.filter (fun p => decide (p.1 = x))).map Prod.snd).dedup

/-- Standard basis vector: `np.zeros(n)` followed by `v.put(i, 1)`. -/
def onehot (n : Nat) (i : Nat) : List ℝ :=
  (List.range n).map (fun j => if j = i then 1 else 0)

/-- Value computed by LogLinModelBasic.featvec: the one-hot vector of the
rule's first-occurrence index in `self._rulelist`. -/
def featvecBasic (rl : List Rule) (p : Rule) : List ℝ :=
  onehot rl.length (find_index_pure rl p)

/-- LogLinModelBasic.featvec_dot: the O(1) override `othervec[index]`. -/
def featvec_dotBasic (rl : List Rule) (p : Rule) (othervec : List ℝ) : ℝ :=
  othervec.getD (find_index_pure rl p) 0

/-- Dot product `np.dot(othervec, featvec)`, the generic
LogLinModel.featvec_dot. -/
def dotList (a b : List ℝ) : ℝ := (List.zipWith (fun u v => u * v) a b).sum

/-- Memoization cache `self._indexdict` of LogLinModelBasic. -/
abbrev IdxCache := List (Rule × Nat)

/-- Memoization cache `self._featvecdict` of LogLinModelBasic. -/
abbrev FvCache := List (Rule × List ℝ)

/-- LogLinModelBasic.find_index with its lazily populated cache: return the
cached index if present; otherwise look the rule up in `self._rulelist`
(`none` models the uncaught ValueError for an absent rule, which leaves
the cache unchanged) and cache the result.  The returned pair is
(value, cache after the call). -/
def findIndexS (rl : List Rule) (c : IdxCache) (p : Rule) : Option Nat × IdxCache :=
  match alookup c p with
  | some i => (some i, c)
  | none =>
    if p ∈ rl then (some (find_index_pure rl p), c ++ [(p, find_index_pure rl p)])
    else (none, c)

/-- LogLinModelBasic.featvec with both caches: return the cached vector if
present, else build the one-hot vector from find_index (propagating its
failure and its index-cache update) and cache it.  The returned triple is
(value, index cache after, feature-vector cache after). -/
def featvecS (rl : List Rule) (c : IdxCache) (fc : FvCache) (p : Rule) :
    Option (List ℝ) × IdxCache × FvCache :=
  match alookup fc p with
  | some v => (some v, c, fc)
  | none =>
    match findIndexS rl c p with
    | (some i, c2) => (some (onehot rl.length i), c2, fc ++ [(p, onehot rl.length i)])
    | (none, c2) => (none, c2, fc)

/-- Every entry of an index cache is the first-occurrence index of a rule
present in the rule list; this holds for every cache state the program
can reach, since only find_index writes to the cache. -/
def ValidIdxCache (rl : List Rule) (c : IdxCache) : Prop :=
  ∀ p i, alookup c p = some i → p ∈ rl ∧ i = find_index_pure rl p

/-- Every entry of a feature-vector cache is the one-hot vector of a rule
present in the rule list. -/
def ValidFvCache (rl : List Rule) (fc : FvCache) : Prop :=
  ∀ p v, alookup fc p = some v → p ∈ rl ∧ v = featvecBasic rl p

/-- Interface of the abstract base class LogLinModel, as used by its
generic methods: the LHS enumeration, per-LHS RHS enumeration, feature
dimensionality, per-rule feature vector, and the featvec_dot hook that
subclasses may override. -/
structure LLModel : Type where
  lhss : List Lhs
  rhss : Lhs → List Rhs
  dim : Nat
  featvec : Lhs → Rhs → List ℝ
  featvec_dot : Lhs → Rhs → List ℝ → ℝ

/-- LogLinModel.score: `self.featvec_dot(x, y, weights)`. -/
def score (m : LLModel) (w : List ℝ) (x : Lhs) (y : Rhs) : ℝ :=
  m.featvec_dot x y w

/-- Maximum of a nonempty list, `scores.max()` (junk value 0 for the empty
list, where numpy would raise). -/
def listMax : List ℝ → ℝ
  | [] => 0
  | a :: t => t.foldl max a

/-- One row of the probability table built by LogLinModel.probs_from_model
for a fixed LHS: score each candidate RHS, shift by the maximum score,
exponentiate, normalize by the sum, and zip the RHSs with the resulting
probabilities. -/
noncomputable def probRow (m : LLModel) (w : List ℝ) (x : Lhs) : List (Rhs × ℝ) :=
  let ys := m.rhss x
  let scores := ys.map (score m w x)
  let b := listMax scores
  let exps := scores.map (fun s => Real.exp (s - b))
  ys.zip (exps.map (fun e => e / exps.sum))

/-- LogLinModel.probs_from_model: the probability table, one row per LHS. -/
noncomputable def probs_from_model (m : LLModel) (w : List ℝ) :
    List (Lhs × List (Rhs × ℝ)) :=
  m.lhss.map (fun x => (x, probRow m w x))

/-- Shifted score maximum for one LHS, the `b` of probs_from_model. -/
noncomputable def maxScore (m : LLModel) (w : List ℝ) (x : Lhs) : ℝ :=
  listMax ((m.rhss x).map (score m w x))

/-- Normalization constant for one LHS, the `shifted_exp_scores.sum()` of
probs_from_model. -/
noncomputable def expSum (m : LLModel) (w : List ℝ) (x : Lhs) : ℝ :=
  ((m.rhss x).map (fun y => Real.exp (score m w x y - maxScore m w x))).sum

/-- Entry of the probability table at (x, y): the value probs_from_model
stores at key y of row x. -/
noncomputable def prob (m : LLModel) (w : List ℝ) (x : Lhs) (y : Rhs) : ℝ :=
  Real.exp (score m w x y - maxScore m w x) / expSum m w x

/-- Most negative finite IEEE double, `np.finfo('float').min`. -/
noncomputable def floatMin : ℝ := -(2 ^ (1024 : Nat) - 2 ^ (971 : Nat))

/-- Inner helper `logprob` of LogLinModel.loglikelihood: raise
ProbabilityZeroError (the `Except` error) on a zero probability, else take
the logarithm. -/
noncomputable def logprobE (p : ℝ) : Except Unit ℝ :=
  if p = 0 then .error () else .ok (Real.log p)

/-- A frequency table `td`: LHS to (RHS to summed integer frequency), as
built by extract_training_data. -/
abbrev FreqTable := List (Lhs × List (Rhs × Int))

/-- One term of the log-likelihood outer loop:
`sum([freq * logprob(lhs, rhs) for (rhs, freq) in d.items()])`, with the
exception propagating out of the comprehension. -/
noncomputable def llInner (probAt : Lhs → Rhs → ℝ) (x : Lhs) (d : List (Rhs × Int)) :
    Except Unit ℝ :=
  (d.mapM (fun yf => (logprobE (probAt x yf.1)).map (fun lp => (yf.2 : ℝ) * lp))).map
    List.sum

/-- Body of the `try` block of LogLinModel.loglikelihood: accumulate the
per-LHS sums, stopping at the first raised ProbabilityZeroError. -/
noncomputable def llTry (probAt : Lhs → Rhs → ℝ) (td : FreqTable) : Except Unit ℝ :=
  td.foldlM (fun ll xd => (llInner probAt xd.1 xd.2).map (fun s => ll + s)) 0

/-- LogLinModel.loglikelihood over a given probability-table function: the
`try`/`except ProbabilityZeroError` wrapper substituting the numeric floor
for the whole log-likelihood. -/
noncomputable def loglikelihoodAux (probAt : Lhs → Rhs → ℝ) (td : FreqTable) : ℝ :=
  match llTry probAt td with
  | .ok ll => ll
  | .error _ => floatMin

/-- LogLinModel.loglikelihood: the probability table is the one computed by
probs_from_model at the same weights, so `probtable[x][y] = prob m w x y`
for the referenced pairs. -/
noncomputable def loglikelihood (m : LLModel) (td : FreqTable) (w : List ℝ) : ℝ :=
  loglikelihoodAux (prob m w) td

/-- Vector of zeros `np.zeros(n)`. -/
def listZero (n : Nat) : List ℝ := List.replicate n 0

/-- Elementwise sum of two numpy vectors of equal length. -/
def listAdd (a b : List ℝ) : List ℝ := List.zipWith (fun u v => u + v) a b

/-- Elementwise difference of two numpy vectors of equal length. -/
def listSub (a b : List ℝ) : List ℝ := List.zipWith (fun u v => u - v) a b

/-- Scalar multiple of a numpy vector. -/
def listSmul (c : ℝ) (v : List ℝ) : List ℝ := v.map (fun u => c * u)

/-- Expectation vector precomputed by LogLinModel.loglhdgrad for one LHS:
`foo = np.zeros(dim); for rhsp in rhss(lhs): foo += p * featvec`, with `p`
the probability-table entry. -/
noncomputable def expectation (m : LLModel) (w : List ℝ) (x : Lhs) : List ℝ :=
  (m.rhss x).foldl
    (fun acc y => listAdd acc (listSmul (prob m w x y) (m.featvec x y)))
    (listZero m.dim)

/-- LogLinModel.loglhdgrad: accumulate
`freq * (featvec(lhs, rhs) - expectation[lhs])` over the frequency table. -/
noncomputable def loglhdgrad (m : LLModel) (td : FreqTable) (w : List ℝ) : List ℝ :=
  td.foldl
    (fun acc xd => xd.2.foldl
      (fun acc2 yf =>
        listAdd acc2 (listSmul (yf.2 : ℝ)
          (listSub (m.featvec xd.1 yf.1) (expectation m w xd.1))))
      acc)
    (listZero m.dim)

/-- Gradient of the L2 penalty, `penaltygrad(lam, weights) = lam * weights`. -/
def penaltygradList (lam : ℝ) (w : List ℝ) : List ℝ := listSmul lam w

/-- Gradient closure handed to scipy.optimize.minimize by
LogLinModel.train: `penaltygrad(lam, weights) - loglhdgrad(td, weights)`. -/
noncomputable def trainGradient (m : LLModel) (td : FreqTable) (lam : ℝ) (w : List ℝ) :
    List ℝ :=
  listSub (penaltygradList lam w) (loglhdgrad m td w)

lemma alookup_append {α : Type u} {β : Type v} [DecidableEq α]
    (l1 l2 : List (α × β)) (x : α) :
    alookup (l1 ++ l2) x =
      match alookup l1 x with
      | some v => some v
      | none => alookup l2 x := by
  induction l1 with
  | nil => simp [alookup]
  | cons hd tl ih =>
    obtain ⟨a, b⟩ := hd
    by_cases h : a = x <;> simp [alookup, h, ih]

lemma alookup_eq_none {α : Type u} {β : Type v} [DecidableEq α]
    (l : List (α × β)) (x : α) :
    alookup l x = none ↔ x ∉ l.map Prod.fst := by
  induction l with
  | nil => simp [alookup]
  | cons hd tl ih =>
    obtain ⟨a, b⟩ := hd
    by_cases h : a = x
    · simp [alookup, h]
    · rw [alookup, if_neg h, ih, List.map_cons, List.mem_cons]
      constructor
      · intro hx hmem
        rcases hmem with he | hm
        · exact h he.symm
        · exact hx hm
      · intro hall hm
        exact hall (Or.inr hm)

lemma alookup_isSome_iff {α : Type u} {β : Type v} [DecidableEq α]
    (l : List (α × β)) (x : α) :
    (alookup l x).isSome ↔ x ∈ l.map Prod.fst := by
  rcases h : alookup l x with _ | v
  · simp [(alookup_eq_none l x).mp h]
  · simp only [Option.isSome_some, true_iff]
    by_contra hx
    rw [(alookup_eq_none l x).mpr hx] at h
    cases h

lemma find_index_pure_lt (l : List Rule) (p : Rule) (hp : p ∈ l) :
    find_index_pure l p < l.length := by
  induction l with
  | nil => cases hp
  | cons q t ih =>
    by_cases h : q = p
    · simp [find_index_pure, h]
    · have hp' : p ∈ t := by
        rcases List.mem_cons.mp hp with h1 | h1
        · exact absurd h1.symm h
        · exact h1
      simpa [find_index_pure, h] using Nat.succ_lt_succ (ih hp')

lemma find_index_pure_get (l : List Rule) (p : Rule) (hp : p ∈ l) :
    l[find_index_pure l p]? = some p := by
  induction l with
  | nil => cases hp
  | cons q t ih =>
    by_cases h : q = p
    · simp [find_index_pure, h]
    · have hp' : p ∈ t := by
        rcases List.mem_cons.mp hp with h1 | h1
        · exact absurd h1.symm h
        · exact h1
      simpa [find_index_pure, h] using ih hp'

lemma find_index_pure_min (l : List Rule) (p : Rule) (j : Nat)
    (hj : j < find_index_pure l p) : l[j]? ≠ some p := by
  induction l generalizing j with
  | nil => simp [find_index_pure] at hj
  | cons q t ih =>
    by_cases h : q = p
    · simp [find_index_pure, h] at hj
    · rw [find_index_pure] at hj
      simp only [if_neg h] at hj
      match j with
      | 0 => simp [h]
      | j + 1 =>
        simpa using ih j (Nat.lt_of_succ_lt_succ hj)

lemma dotList_all_zero (w v : List ℝ) (hv : ∀ c ∈ v, c = 0) : dotList w v = 0 := by
  induction w generalizing v with
  | nil => simp [dotList]
  | cons a w' ih =>
    match v with
    | [] => simp [dotList]
    | c :: v' =>
      have hc : c = 0 := hv c (by simp)
      have hv' : ∀ c ∈ v', c = 0 := fun c hcm => hv c (by simp [hcm])
      simp only [dotList, List.zipWith_cons_cons, List.sum_cons] at *
      rw [hc, ih v' hv']
      ring

lemma dot_onehot (w : List ℝ) (k : Nat) (hk : k < w.length) :
    dotList w (onehot w.length k) = w.getD k 0 := by
  induction w generalizing k with
  | nil => simp at hk
  | cons a w' ih =>
    rw [onehot, List.length_cons, List.range_succ_eq_map, List.map_cons, List.map_map]
    match k with
    | 0 =>
      have hzs : ∀ c ∈ List.map ((fun j => if j = 0 then (1 : ℝ) else 0) ∘ Nat.succ)
          (List.range w'.length), c = 0 := by
        intro c hc
        rcases List.mem_map.mp hc with ⟨j, _, hj⟩
        simpa using hj.symm
      have h0 := dotList_all_zero w' _ hzs
      simp only [dotList] at h0 ⊢
      simp [h0]
    | k + 1 =>
      have hk' : k < w'.length := Nat.lt_of_succ_lt_succ hk
      have hfun : ((fun j => if j = k + 1 then (1 : ℝ) else 0) ∘ Nat.succ) =
          fun j => if j = k then (1 : ℝ) else 0 := by
        funext j
        simp [Function.comp, Nat.succ_inj]
      rw [hfun]
      have ihk := ih k hk'
      rw [onehot] at ihk
      simp only [dotList] at ihk ⊢
      simp [ihk]

/-- C4: for every indicator-model rule list, every rule present in it, and
every weight vector of matching length, the overridden O(1) score
`weights[index_of(lhs, rhs)]` of LogLinModelBasic.featvec_dot equals the
generic dot product of the weights with the rule's one-hot feature
vector. -/
theorem basic_score_eq_dot (rl : List Rule) (p : Rule) (w : List ℝ)
    (hp : p ∈ rl) (hw : w.length = rl.length) :
    featvec_dotBasic rl p w = dotList w (featvecBasic rl p) := by
  have hk : find_index_pure rl p < w.length := hw ▸ find_index_pure_lt rl p hp
  rw [featvec_dotBasic, featvecBasic, ← hw]
  exact (dot_onehot w (find_index_pure rl p) hk).symm

/-- Witness for C4 at a concrete two-rule model and weight vector. -/
theorem basic_score_eq_dot_witness :
    featvec_dotBasic [("S", ["A"]), ("S", ["B"])] ("S", ["B"]) [2, 3] =
      dotList [2, 3] (featvecBasic [("S", ["A"]), ("S", ["B"])] ("S", ["B"])) :=
  basic_score_eq_dot [("S", ["A"]), ("S", ["B"])] ("S", ["B"]) [2, 3]
    (by decide) rfl

/-- Counterexample for C8 as stated: a rule list with a repeated pair has
two distinct pairs collapsed to one, yet LogLinModelBasic.dim returns the
full list length 2, not the number of distinct pairs 1. -/
theorem basic_dim_distinct_cex :
    dimBasic [("S", ["A"]), ("S", ["A"])] = 2 ∧
    ([(("S" : Lhs), (["A"] : Rhs)), ("S", ["A"])].dedup).length = 1 :=
  ⟨rfl, rfl⟩

/-- C8 amended: dim() equals the total length of the input rule list
(duplicates included); for every rule present in the list, find_index
(through any reachable state of its memoization cache) returns the index
of the rule's first occurrence, so a repeated pair gets the same index as
its first occurrence and index assignment follows first-occurrence order
over the input list. -/
theorem basic_index_first_seen_amended (rl : List Rule) (c : IdxCache)
    (hc : ValidIdxCache rl c) (p : Rule) (hp : p ∈ rl) :
    dimBasic rl = rl.length ∧
    (findIndexS rl c p).1 = some (find_index_pure rl p) ∧
    rl[find_index_pure rl p]? = some p ∧
    ∀ j, j < find_index_pure rl p → rl[j]? ≠ some p := by
  refine ⟨rfl, ?_, find_index_pure_get rl p hp, fun j hj => find_index_pure_min rl p j hj⟩
  rw [findIndexS]
  rcases h : alookup c p with _ | i
  · simp [hp]
  · simpa using (hc p i h).2

/-- Witness for the amended C8 at a concrete rule list with a duplicate,
an empty cache, and the repeated rule. -/
theorem basic_index_first_seen_amended_witness :
    (findIndexS [("S", ["A"]), ("S", ["A"]), ("S", ["B"])] [] ("S", ["A"])).1 =
      some (find_index_pure [("S", ["A"]), ("S", ["A"]), ("S", ["B"])] ("S", ["A"])) :=
  (basic_index_first_seen_amended [("S", ["A"]), ("S", ["A"]), ("S", ["B"])] []
    (fun p i h => by simp [alookup] at h) ("S", ["A"]) (by decide)).2.1

lemma alookup_singleton {α : Type u} {β : Type v} [DecidableEq α] (a : α) (b : β) (x : α) :
    alookup [(a, b)] x = if a = x then some b else none := by
  simp [alookup]

lemma validIdxCache_snoc (rl : List Rule) (c : IdxCache) (hc : ValidIdxCache rl c)
    (p : Rule) (hp : p ∈ rl) :
    ValidIdxCache rl (c ++ [(p, find_index_pure rl p)]) := by
  intro q i h
  rw [alookup_append] at h
  rcases hq : alookup c q with _ | v
  · rw [hq] at h
    simp only at h
    rw [alookup_singleton] at h
    by_cases hqp : p = q
    · rw [if_pos hqp] at h
      simp only [Option.some.injEq] at h
      exact ⟨hqp ▸ hp, by rw [← hqp, ← h]⟩
    · rw [if_neg hqp] at h
      cases h
  · rw [hq] at h
    simp only [Option.some.injEq] at h
    exact h ▸ hc q v hq

lemma findIndexS_val (rl : List Rule) (c : IdxCache) (hc : ValidIdxCache rl c) (p : Rule) :
    (findIndexS rl c p).1 = (if p ∈ rl then some (find_index_pure rl p) else none) := by
  rw [findIndexS]
  rcases h : alookup c p with _ | i
  · by_cases hp : p ∈ rl <;> simp [hp]
  · obtain ⟨hmem, hval⟩ := hc p i h
    simp [hmem, hval]

lemma findIndexS_cacheValid (rl : List Rule) (c : IdxCache) (hc : ValidIdxCache rl c)
    (p : Rule) : ValidIdxCache rl (findIndexS rl c p).2 := by
  rw [findIndexS]
  rcases h : alookup c p with _ | i
  · by_cases hp : p ∈ rl
    · simpa [hp] using validIdxCache_snoc rl c hc p hp
    · simpa [hp] using hc
  · simpa using hc

lemma validFvCache_snoc (rl : List Rule) (fc : FvCache) (hf : ValidFvCache rl fc)
    (p : Rule) (hp : p ∈ rl) :
    ValidFvCache rl (fc ++ [(p, featvecBasic rl p)]) := by
  intro q v h
  rw [alookup_append] at h
  rcases hq : alookup fc q with _ | u
  · rw [hq] at h
    simp only at h
    rw [alookup_singleton] at h
    by_cases hqp : p = q
    · rw [if_pos hqp] at h
      simp only [Option.some.injEq] at h
      exact ⟨hqp ▸ hp, by rw [← hqp, ← h]⟩
    · rw [if_neg hqp] at h
      cases h
  · rw [hq] at h
    simp only [Option.some.injEq] at h
    exact h ▸ hf q u hq

lemma featvecS_spec (rl : List Rule) (c : IdxCache) (fc : FvCache)
    (hc : ValidIdxCache rl c) (hf : ValidFvCache rl fc) (p : Rule) :
    (featvecS rl c fc p).1 = (if p ∈ rl then some (featvecBasic rl p) else none) ∧
    ValidIdxCache rl (featvecS rl c fc p).2.1 ∧
    ValidFvCache rl (featvecS rl c fc p).2.2 := by
  rw [featvecS]
  rcases h : alookup fc p with _ | v
  · rcases hfs : findIndexS rl c p with ⟨oi, c2⟩
    have hval := findIndexS_val rl c hc p
    have hc2 : ValidIdxCache rl c2 := by
      have := findIndexS_cacheValid rl c hc p
      rw [hfs] at this
      exact this
    rw [hfs] at hval
    rcases oi with _ | i
    · have hp : ¬ p ∈ rl := by
        by_contra hp
        simp [hp] at hval
      refine ⟨by simp [hp], by simpa using hc2, by simpa using hf⟩
    · have hp : p ∈ rl := by
        by_contra hp
        simp [hp] at hval
      have hi : i = find_index_pure rl p := by
        simp [hp] at hval
        omega
      have hfv : onehot rl.length i = featvecBasic rl p := by
        rw [hi, featvecBasic]
      refine ⟨by simp [hp, hfv], by simpa using hc2, ?_⟩
      simp only
      have := validFvCache_snoc rl fc hf p hp
      rw [← hfv] at this
      exact this
  · obtain ⟨hmem, hval⟩ := hf p v h
    exact ⟨by simp [hmem, hval], by simpa using hc, by simpa using hf⟩

/-- C9: the value LogLinModelBasic.find_index returns, and the value
LogLinModelBasic.featvec returns, are functions of the rule list and the
queried rule alone — the same for every reachable (valid) state of the
lazily populated `_indexdict` and `_featvecdict` caches — and every call
leaves the caches valid.  Hence the objective and gradient, which read the
indicator model only through these methods (and through the pure lhss,
rhss, dim), return equal results at equal weight vectors regardless of
evaluation order and of which evaluations happened in between. -/
theorem basic_cache_purity (rl : List Rule) (c : IdxCache) (fc : FvCache)
    (hc : ValidIdxCache rl c) (hf : ValidFvCache rl fc) (p : Rule) :
    (findIndexS rl c p).1 = (if p ∈ rl then some (find_index_pure rl p) else none) ∧
    ValidIdxCache rl (findIndexS rl c p).2 ∧
    (featvecS rl c fc p).1 = (if p ∈ rl then some (featvecBasic rl p) else none) ∧
    ValidIdxCache rl (featvecS rl c fc p).2.1 ∧
    ValidFvCache rl (featvecS rl c fc p).2.2 := by
  obtain ⟨h1, h2, h3⟩ := featvecS_spec rl c fc hc hf p
  exact ⟨findIndexS_val rl c hc p, findIndexS_cacheValid rl c hc p, h1, h2, h3⟩

/-- Witness for C9 at a concrete one-rule model with both caches empty. -/
theorem basic_cache_purity_witness :
    (featvecS [("S", ["A"])] [] [] ("S", ["A"])).1 =
      (if ("S", ["A"]) ∈ [(("S" : Lhs), (["A"] : Rhs))] then
        some (featvecBasic [("S", ["A"])] ("S", ["A"])) else none) :=
  (basic_cache_purity [("S", ["A"])] [] []
    (fun p i h => by simp [alookup] at h)
    (fun p v h => by simp [alookup] at h) ("S", ["A"])).2.2.1

lemma getFeat_addPair {R : Type u} [DecidableEq R] (rules : Rules R) (x : Lhs) (r : Rhs)
    (f : List R) (hnone : getFeat rules x r = none) (x' : Lhs) (r' : Rhs) :
    getFeat (addPair rules x r f) x' r' =
      if x' = x ∧ r' = r then some f else getFeat rules x' r' := by
  induction rules with
  | nil =>
    rcases eq_or_ne x x' with hx | hx
    · subst hx
      rcases eq_or_ne r r' with hr | hr
      · subst hr
        simp [addPair, getFeat, alookup]
      · simp [addPair, getFeat, alookup, hr, Ne.symm hr]
    · simp [addPair, getFeat, alookup, hx, Ne.symm hx]
  | cons hd rest ih =>
    obtain ⟨l, row⟩ := hd
    by_cases hlx : l = x
    · subst hlx
      have hrow : alookup ((l, row) :: rest) l = some row := by simp [alookup]
      have hrnone : alookup row r = none := by
        rw [getFeat, hrow] at hnone
        simpa using hnone
      rw [addPair, if_pos rfl]
      by_cases hx' : l = x'
      · rw [getFeat, getFeat, alookup, alookup, if_pos hx', if_pos hx']
        simp only [Option.some_bind]
        rw [alookup_append]
        by_cases hr' : r' = r
        · subst hr'
          rw [hrnone, alookup_singleton, if_pos rfl, if_pos ⟨hx'.symm, rfl⟩]
        · rcases hrow' : alookup row r' with _ | v
          · rw [alookup_singleton, if_neg (fun hc => hr' hc.symm),
              if_neg (fun hc => hr' hc.2)]
          · rw [if_neg (fun hc => hr' hc.2)]
      · rw [getFeat, getFeat, alookup, alookup, if_neg hx', if_neg hx',
          if_neg (fun hc => hx' (hc.1.symm))]
    · have hrest : getFeat rest x r = none := by
        rw [getFeat, alookup, if_neg hlx] at hnone
        exact hnone
      rw [addPair, if_neg hlx]
      by_cases hlx' : l = x'
      · have hxx : ¬ (x' = x ∧ r' = r) := fun hc => hlx (hlx'.trans hc.1)
        rw [getFeat, getFeat, alookup, alookup, if_pos hlx', if_pos hlx', if_neg hxx]
      · rw [getFeat, alookup, if_neg hlx']
        rw [getFeat, alookup, if_neg hlx']
        exact ih hrest

lemma keys_addPair {R : Type u} [DecidableEq R] (rules : Rules R) (x : Lhs) (r : Rhs)
    (f : List R) :
    (addPair rules x r f).map Prod.fst =
      if x ∈ rules.map Prod.fst then rules.map Prod.fst
      else rules.map Prod.fst ++ [x] := by
  induction rules with
  | nil => simp [addPair]
  | cons hd rest ih =>
    obtain ⟨l, row⟩ := hd
    by_cases hlx : l = x
    · rw [addPair, if_pos hlx]
      have : x ∈ ((l, row) :: rest).map Prod.fst := by simp [hlx.symm]
      rw [if_pos this]
      simp
    · rw [addPair, if_neg hlx]
      have hmem : x ∈ ((l, row) :: rest).map Prod.fst ↔ x ∈ rest.map Prod.fst := by
        simp only [List.map_cons, List.mem_cons]
        constructor
        · rintro (h | h)
          · exact absurd h.symm hlx
          · exact h
        · exact Or.inr
      by_cases hx : x ∈ rest.map Prod.fst
      · rw [if_pos (hmem.mpr hx)]
        simp only [List.map_cons]
        rw [ih, if_pos hx]
      · rw [if_neg (fun hc => hx (hmem.mp hc))]
        simp only [List.map_cons]
        rw [ih, if_neg hx]
        simp

lemma nodup_addPair {R : Type u} [DecidableEq R] (rules : Rules R) (x : Lhs) (r : Rhs)
    (f : List R) (hnone : getFeat rules x r = none) (hnd : NodupKeys rules) :
    NodupKeys (addPair rules x r f) := by
  induction rules with
  | nil =>
    constructor
    · simp [addPair]
    · intro lr hlr
      rw [addPair] at hlr
      rcases List.mem_singleton.mp hlr with rfl
      simp
  | cons hd rest ih =>
    obtain ⟨l, row⟩ := hd
    obtain ⟨hk, hr⟩ := hnd
    simp only [List.map_cons, List.nodup_cons] at hk
    by_cases hlx : l = x
    · subst hlx
      have hrnone : alookup row r = none := by
        rw [getFeat, alookup, if_pos rfl] at hnone
        simpa using hnone
      have hrmem : r ∉ row.map Prod.fst := (alookup_eq_none row r).mp hrnone
      rw [addPair, if_pos rfl]
      constructor
      · simpa using hk
      · intro lr hlr
        rcases List.mem_cons.mp hlr with rfl | hmem
        · simp only [List.map_append, List.map_cons, List.map_nil]
          rw [List.nodup_append]
          refine ⟨hr (l, row) (by simp), by simp, ?_⟩
          intro a ha hb
          rcases List.mem_singleton.mp hb with rfl
          exact hrmem ha
        · exact hr lr (List.mem_cons_of_mem _ hmem)
    · have hrest : getFeat rest x r = none := by
        rw [getFeat, alookup, if_neg hlx] at hnone
        exact hnone
      have ihres := ih hrest ⟨hk.2, fun lr hlr => hr lr (List.mem_cons_of_mem _ hlr)⟩
      rw [addPair, if_neg hlx]
      constructor
      · simp only [List.map_cons, List.nodup_cons]
        refine ⟨?_, ihres.1⟩
        rw [keys_addPair]
        by_cases hx : x ∈ rest.map Prod.fst
        · rw [if_pos hx]
          exact hk.1
        · rw [if_neg hx]
          intro hmem
          rcases List.mem_append.mp hmem with h1 | h1
          · exact hk.1 h1
          · exact hlx (List.mem_singleton.mp h1)
      · intro lr hlr
        rcases List.mem_cons.mp hlr with hl | hmem
        · subst hl
          exact hr (l, row) (List.mem_cons_self _ _)
        · exact ihres.2 lr hmem

lemma countEntries_eq_zero {R : Type u} [DecidableEq R] (rules : Rules R) (x : Lhs)
    (r : Rhs) (hx : x ∉ rules.map Prod.fst) : countEntries rules x r = 0 := by
  induction rules with
  | nil => rfl
  | cons hd rest ih =>
    obtain ⟨l, row⟩ := hd
    simp only [List.map_cons, List.mem_cons] at hx
    push_neg at hx
    rw [countEntries, List.map_cons, List.sum_cons]
    simp only [if_neg (fun hc : l = x => hx.1 hc.symm)]
    rw [Nat.zero_add]
    exact ih hx.2

lemma countRow_length {R : Type u} (row : RuleRow R) (r : Rhs)
    (hnd : (row.map Prod.fst).Nodup) :
    (row.filter (fun yf => yf.1 = r)).length = if r ∈ row.map Prod.fst then 1 else 0 := by
  induction row with
  | nil => simp
  | cons hd row' ih =>
    obtain ⟨r0, f0⟩ := hd
    simp only [List.map_cons, List.nodup_cons] at hnd
    by_cases h0 : r0 = r
    · subst h0
      have hfil : row'.filter (fun yf => decide (yf.1 = r0)) = [] := by
        rw [List.filter_eq_nil_iff]
        intro a ha
        simp only [decide_eq_true_eq]
        intro hc
        exact hnd.1 (hc ▸ List.mem_map_of_mem Prod.fst ha)
      simp [List.filter_cons, hfil]
    · have hstep : List.filter (fun yf => decide (yf.1 = r)) ((r0, f0) :: row') =
          List.filter (fun yf => decide (yf.1 = r)) row' := by
        simp [List.filter_cons, h0]
      rw [hstep, ih hnd.2, List.map_cons]
      by_cases hmem : r ∈ row'.map Prod.fst
      · rw [if_pos hmem, if_pos (List.mem_cons_of_mem _ hmem)]
      · rw [if_neg hmem, if_neg ?hno]
        case hno =>
          intro hc
          rcases List.mem_cons.mp hc with h1 | h1
          · exact h0 h1.symm
          · exact hmem h1

lemma countEntries_eq_one {R : Type u} [DecidableEq R] (rules : Rules R) (x : Lhs)
    (r : Rhs) (hnd : NodupKeys rules) (hsome : (getFeat rules x r).isSome) :
    countEntries rules x r = 1 := by
  induction rules with
  | nil => simp [getFeat, alookup] at hsome
  | cons hd rest ih =>
    obtain ⟨l, row⟩ := hd
    obtain ⟨hk, hr⟩ := hnd
    simp only [List.map_cons, List.nodup_cons] at hk
    simp only [countEntries, List.map_cons, List.sum_cons]
    by_cases hlx : l = x
    · rw [getFeat, alookup, if_pos hlx] at hsome
      simp only [Option.some_bind] at hsome
      have hrow : r ∈ row.map Prod.fst := by
        rw [← alookup_isSome_iff]
        exact hsome
      have hcnt : (row.filter (fun yf => yf.1 = r)).length = 1 := by
        rw [countRow_length _ _ (hr (l, row) (List.mem_cons_self _ _))]
        simp [hrow]
      have hzero : countEntries rest x r = 0 :=
        countEntries_eq_zero rest x r (hlx ▸ hk.1)
      rw [countEntries] at hzero
      simp only [if_pos hlx, hcnt, hzero]
    · rw [getFeat, alookup, if_neg hlx] at hsome
      have htail := ih ⟨hk.2, fun lr hlr => hr lr (List.mem_cons_of_mem _ hlr)⟩ hsome
      rw [countEntries] at htail
      simp only [if_neg hlx, htail]

lemma bindE_ok {ε : Type u} {α β : Type v} (a : α) (f : α → Except ε β) :
    (Except.ok a : Except ε α) >>= f = f a := rfl

lemma bindE_error {ε : Type u} {α β : Type v} (e : ε) (f : α → Except ε β) :
    (Except.error e : Except ε α) >>= f = Except.error e := rfl

lemma mapE_ok {ε : Type u} {α β : Type v} (f : α → β) (a : α) :
    Except.map f (Except.ok a : Except ε α) = Except.ok (f a) := rfl

lemma mapE_error {ε : Type u} {α β : Type v} (f : α → β) (e : ε) :
    Except.map f (Except.error e : Except ε α) = Except.error e := rfl

lemma insertTriple_ok {R : Type u} [DecidableEq R] (rules : Rules R) (t : Triple R)
    (rules' : Rules R) (h : insertTriple rules t = .ok rules') :
    (getFeat rules t.1 t.2.1 = some t.2.2 ∧ rules' = rules) ∨
    (getFeat rules t.1 t.2.1 = none ∧ rules' = addPair rules t.1 t.2.1 t.2.2) := by
  rw [insertTriple] at h
  split at h
  next old hg =>
    by_cases hold : old = t.2.2
    · rw [if_pos hold] at h
      simp only [Except.ok.injEq] at h
      exact Or.inl ⟨by rw [hg, hold], h.symm⟩
    · rw [if_neg hold] at h
      cases h
  next hg =>
    simp only [Except.ok.injEq] at h
    exact Or.inr ⟨hg, h.symm⟩

lemma denseStep_ok_rules {R : Type u} [DecidableEq R] (st : Option Nat × Rules R)
    (t : Triple R) (st1 : Option Nat × Rules R) (h : denseStep st t = .ok st1) :
    (getFeat st.2 t.1 t.2.1 = some t.2.2 ∧ st1.2 = st.2) ∨
    (getFeat st.2 t.1 t.2.1 = none ∧ st1.2 = addPair st.2 t.1 t.2.1 t.2.2) := by
  rw [denseStep] at h
  split at h
  · rcases hins : insertTriple st.2 t with e | rules'
    · rw [hins, mapE_error] at h
      cases h
    · rw [hins, mapE_ok] at h
      simp only [Except.ok.injEq] at h
      have hres := insertTriple_ok st.2 t rules' hins
      rw [← h]
      simpa using hres
  · split at h
    · rcases hins : insertTriple st.2 t with e | rules'
      · rw [hins, mapE_error] at h
        cases h
      · rw [hins, mapE_ok] at h
        simp only [Except.ok.injEq] at h
        have hres := insertTriple_ok st.2 t rules' hins
        rw [← h]
        simpa using hres
    · cases h

lemma denseFold_ok_spec {R : Type u} [DecidableEq R] :
    ∀ (inp : List (Triple R)) (st res : Option Nat × Rules R),
      List.foldlM denseStep st inp = .ok res →
      (∀ x r, (getFeat res.2 x r).isSome ↔
        (getFeat st.2 x r).isSome ∨ ∃ t ∈ inp, t.1 = x ∧ t.2.1 = r) ∧
      (∀ x, x ∈ lhssDense res.2 ↔ x ∈ lhssDense st.2 ∨ ∃ t ∈ inp, t.1 = x) ∧
      (NodupKeys st.2 → NodupKeys res.2) := by
  intro inp
  induction inp with
  | nil =>
    intro st res h
    rw [List.foldlM_nil] at h
    cases h
    exact ⟨fun x r => by simp, fun x => by simp, fun hnd => hnd⟩
  | cons t rest ih =>
    intro st res h
    rw [List.foldlM_cons] at h
    rcases hstep : denseStep st t with e | st1
    · rw [hstep, bindE_error] at h
      cases h
    · rw [hstep, bindE_ok] at h
      obtain ⟨ih1, ih2, ih3⟩ := ih st1 res h
      rcases denseStep_ok_rules st t st1 hstep with ⟨hfeat, hsame⟩ | ⟨hfeat, hadd⟩
      · refine ⟨fun x r => ?_, fun x => ?_, fun hnd => ih3 (hsame ▸ hnd)⟩
        · rw [ih1 x r, hsame]
          constructor
          · rintro (h1 | ⟨t', ht', h1⟩)
            · exact Or.inl h1
            · exact Or.inr ⟨t', List.mem_cons_of_mem _ ht', h1⟩
          · rintro (h1 | ⟨t', ht', h1⟩)
            · exact Or.inl h1
            · rcases List.mem_cons.mp ht' with heq | hmem
              · subst heq
                left
                rw [← h1.1, ← h1.2, hfeat]
                rfl
              · exact Or.inr ⟨t', hmem, h1⟩
        · rw [ih2 x, hsame]
          constructor
          · rintro (h1 | ⟨t', ht', h1⟩)
            · exact Or.inl h1
            · exact Or.inr ⟨t', List.mem_cons_of_mem _ ht', h1⟩
          · rintro (h1 | ⟨t', ht', h1⟩)
            · exact Or.inl h1
            · rcases List.mem_cons.mp ht' with heq | hmem
              · subst heq
                left
                rw [lhssDense, ← alookup_isSome_iff]
                have hs : (getFeat st.2 t'.1 t'.2.1).isSome = true := by
                  rw [hfeat]
                  rfl
                rw [getFeat] at hs
                rcases ha : alookup st.2 t'.1 with _ | row
                · rw [ha] at hs
                  cases hs
                · rw [← h1, ha]
                  rfl
              · exact Or.inr ⟨t', hmem, h1⟩
      · have hget := getFeat_addPair st.2 t.1 t.2.1 t.2.2 hfeat
        refine ⟨fun x r => ?_, fun x => ?_,
          fun hnd => ih3 (by rw [hadd]; exact nodup_addPair st.2 t.1 t.2.1 t.2.2 hfeat hnd)⟩
        · rw [ih1 x r, hadd, hget x r]
          by_cases hxr : x = t.1 ∧ r = t.2.1
          · rw [if_pos hxr]
            apply iff_of_true
            · exact Or.inl (by simp)
            · exact Or.inr ⟨t, List.mem_cons_self _ _, hxr.1.symm, hxr.2.symm⟩
          · rw [if_neg hxr]
            constructor
            · rintro (h1 | ⟨t', ht', h1⟩)
              · exact Or.inl h1
              · exact Or.inr ⟨t', List.mem_cons_of_mem _ ht', h1⟩
            · rintro (h1 | ⟨t', ht', h1⟩)
              · exact Or.inl h1
              · rcases List.mem_cons.mp ht' with heq | hmem
                · subst heq
                  exact absurd ⟨h1.1.symm, h1.2.symm⟩ hxr
                · exact Or.inr ⟨t', hmem, h1⟩
        · rw [ih2 x, hadd]
          have hkeys := keys_addPair st.2 t.1 t.2.1 t.2.2
          constructor
          · rintro (h1 | ⟨t', ht', h1⟩)
            · rw [lhssDense, hkeys] at h1
              by_cases hmem : t.1 ∈ st.2.map Prod.fst
              · rw [if_pos hmem] at h1
                exact Or.inl h1
              · rw [if_neg hmem] at h1
                rcases List.mem_append.mp h1 with h2 | h2
                · exact Or.inl h2
                · exact Or.inr ⟨t, List.mem_cons_self _ _, (List.mem_singleton.mp h2).symm⟩
            · exact Or.inr ⟨t', List.mem_cons_of_mem _ ht', h1⟩
          · have hsub : x ∈ st.2.map Prod.fst ∨ x = t.1 →
                x ∈ lhssDense (addPair st.2 t.1 t.2.1 t.2.2) := by
              intro h2
              rw [lhssDense, hkeys]
              by_cases hmem : t.1 ∈ st.2.map Prod.fst
              · rw [if_pos hmem]
                rcases h2 with h2 | h2
                · exact h2
                · exact h2 ▸ hmem
              · rw [if_neg hmem]
                rcases h2 with h2 | h2
                · exact List.mem_append.mpr (Or.inl h2)
                · exact List.mem_append.mpr (Or.inr (by simp [h2]))
            rintro (h1 | ⟨t', ht', h1⟩)
            · exact Or.inl (hsub (Or.inl h1))
            · rcases List.mem_cons.mp ht' with heq | hmem
              · subst heq
                exact Or.inl (hsub (Or.inr h1.symm))
              · exact Or.inr ⟨t', hmem, h1⟩

lemma storedOK_nil {R : Type u} [DecidableEq R] (inp : List (Triple R)) :
    StoredOK ([] : Rules R) inp := by
  intro x r f hget
  rw [getFeat] at hget
  cases hget

lemma storedOK_tail {R : Type u} [DecidableEq R] (rules : Rules R) (t : Triple R)
    (rest : List (Triple R)) (h : StoredOK rules (t :: rest)) : StoredOK rules rest :=
  fun x r f hget t' ht' => h x r f hget t' (List.mem_cons_of_mem _ ht')

lemma featConsistent_tail {R : Type u} (t : Triple R) (rest : List (Triple R))
    (h : FeatConsistent (t :: rest)) : FeatConsistent rest :=
  fun t1 h1 t2 h2 => h t1 (List.mem_cons_of_mem _ h1) t2 (List.mem_cons_of_mem _ h2)

lemma consistent_cons_same {R : Type u} [DecidableEq R] (rules : Rules R) (t : Triple R)
    (rest : List (Triple R)) (hsome : getFeat rules t.1 t.2.1 = some t.2.2) :
    (FeatConsistent (t :: rest) ∧ StoredOK rules (t :: rest)) ↔
    (FeatConsistent rest ∧ StoredOK rules rest) := by
  constructor
  · rintro ⟨hfc, hso⟩
    exact ⟨featConsistent_tail t rest hfc, storedOK_tail rules t rest hso⟩
  · rintro ⟨hfc, hso⟩
    constructor
    · intro t1 h1 t2 h2 e1 e2
      rcases List.mem_cons.mp h1 with heq1 | hm1
      · rcases List.mem_cons.mp h2 with heq2 | hm2
        · rw [heq1, heq2]
        · subst heq1
          exact (hso t1.1 t1.2.1 t1.2.2 hsome t2 hm2 e1.symm e2.symm).symm
      · rcases List.mem_cons.mp h2 with heq2 | hm2
        · subst heq2
          have hs2 : getFeat rules t1.1 t1.2.1 = some t2.2.2 := by
            rw [e1, e2]
            exact hsome
          exact hso t1.1 t1.2.1 t2.2.2 hs2 t1 hm1 rfl rfl
        · exact hfc t1 hm1 t2 hm2 e1 e2
    · intro x r f hget t' ht' e1 e2
      rcases List.mem_cons.mp ht' with heq | hm
      · subst heq
        rw [e1, e2, hget] at hsome
        simp only [Option.some.injEq] at hsome
        exact hsome.symm
      · exact hso x r f hget t' hm e1 e2

lemma consistent_cons_addPair {R : Type u} [DecidableEq R] (rules : Rules R)
    (t : Triple R) (rest : List (Triple R)) (hnone : getFeat rules t.1 t.2.1 = none) :
    (FeatConsistent (t :: rest) ∧ StoredOK rules (t :: rest)) ↔
    (FeatConsistent rest ∧ StoredOK (addPair rules t.1 t.2.1 t.2.2) rest) := by
  have hget := getFeat_addPair rules t.1 t.2.1 t.2.2 hnone
  constructor
  · rintro ⟨hfc, hso⟩
    refine ⟨featConsistent_tail t rest hfc, ?_⟩
    intro x r f hg t' ht' e1 e2
    rw [hget x r] at hg
    by_cases hxr : x = t.1 ∧ r = t.2.1
    · rw [if_pos hxr] at hg
      simp only [Option.some.injEq] at hg
      rw [← hg]
      exact hfc t' (List.mem_cons_of_mem _ ht') t (List.mem_cons_self _ _)
        (by rw [e1, hxr.1]) (by rw [e2, hxr.2])
    · rw [if_neg hxr] at hg
      exact hso x r f hg t' (List.mem_cons_of_mem _ ht') e1 e2
  · rintro ⟨hfc, hso⟩
    constructor
    · intro t1 h1 t2 h2 e1 e2
      have hstored : getFeat (addPair rules t.1 t.2.1 t.2.2) t.1 t.2.1 = some t.2.2 := by
        rw [hget t.1 t.2.1, if_pos ⟨rfl, rfl⟩]
      rcases List.mem_cons.mp h1 with heq1 | hm1
      · rcases List.mem_cons.mp h2 with heq2 | hm2
        · rw [heq1, heq2]
        · subst heq1
          exact (hso t1.1 t1.2.1 t1.2.2 hstored t2 hm2 e1.symm e2.symm).symm
      · rcases List.mem_cons.mp h2 with heq2 | hm2
        · subst heq2
          have hs2 : getFeat (addPair rules t2.1 t2.2.1 t2.2.2) t1.1 t1.2.1 =
              some t2.2.2 := by
            rw [e1, e2]
            exact hstored
          exact hso t1.1 t1.2.1 t2.2.2 hs2 t1 hm1 rfl rfl
        · exact hfc t1 hm1 t2 hm2 e1 e2
    · intro x r f hg t' ht' e1 e2
      rcases List.mem_cons.mp ht' with heq | hm
      · subst heq
        rw [← e1, ← e2, hnone] at hg
        cases hg
      · have hxr : ¬ (x = t.1 ∧ r = t.2.1) := by
          rintro ⟨hx, hr⟩
          rw [hx, hr, hnone] at hg
          cases hg
        have : getFeat (addPair rules t.1 t.2.1 t.2.2) x r = some f := by
          rw [hget x r, if_neg hxr]
          exact hg
        exact hso x r f this t' hm e1 e2

lemma denseStep_some {R : Type u} [DecidableEq R] (d : Nat) (rules : Rules R)
    (t : Triple R) :
    denseStep (some d, rules) t =
      if t.2.2.length = d then (insertTriple rules t).map (fun rules => (some d, rules))
      else .error .dimensionMismatch := rfl

lemma insertTriple_of_none {R : Type u} [DecidableEq R] (rules : Rules R) (t : Triple R)
    (hnone : getFeat rules t.1 t.2.1 = none) :
    insertTriple rules t = .ok (addPair rules t.1 t.2.1 t.2.2) := by
  rw [insertTriple]
  split
  next old hg => rw [hnone] at hg; cases hg
  next => rfl

lemma insertTriple_of_eq {R : Type u} [DecidableEq R] (rules : Rules R) (t : Triple R)
    (hsome : getFeat rules t.1 t.2.1 = some t.2.2) :
    insertTriple rules t = .ok rules := by
  rw [insertTriple]
  split
  next old hg =>
    rw [hsome] at hg
    simp only [Option.some.injEq] at hg
    rw [if_pos hg.symm]
  next hg => rw [hsome] at hg; cases hg

lemma insertTriple_of_ne {R : Type u} [DecidableEq R] (rules : Rules R) (t : Triple R)
    (old : List R) (hsome : getFeat rules t.1 t.2.1 = some old) (hne : old ≠ t.2.2) :
    insertTriple rules t = .error .featureMismatch := by
  rw [insertTriple]
  split
  next old' hg =>
    rw [hsome] at hg
    simp only [Option.some.injEq] at hg
    rw [if_neg (hg ▸ hne)]
  next hg => rw [hsome] at hg; cases hg

lemma denseFold_dim_err {R : Type u} [DecidableEq R] :
    ∀ (inp : List (Triple R)) (rules : Rules R) (d : Nat),
      FeatConsistent inp → StoredOK rules inp →
      (List.foldlM denseStep (some d, rules) inp = .error .dimensionMismatch ↔
        ∃ t ∈ inp, t.2.2.length ≠ d) := by
  intro inp
  induction inp with
  | nil =>
    intro rules d _ _
    rw [List.foldlM_nil]
    apply iff_of_false
    · intro h
      cases h
    · rintro ⟨t, ht, _⟩
      cases ht
  | cons t rest ih =>
    intro rules d hfc hso
    rw [List.foldlM_cons, denseStep_some]
    by_cases hlen : t.2.2.length = d
    · rw [if_pos hlen]
      have hiff : ∀ rules1 : Rules R,
          (List.foldlM denseStep (some d, rules1) rest = .error .dimensionMismatch ↔
            ∃ t' ∈ rest, t'.2.2.length ≠ d) →
          (List.foldlM denseStep (some d, rules1) rest = .error .dimensionMismatch ↔
            ∃ t' ∈ t :: rest, t'.2.2.length ≠ d) := by
        intro rules1 h
        rw [h]
        constructor
        · rintro ⟨t', ht', h1⟩
          exact ⟨t', List.mem_cons_of_mem _ ht', h1⟩
        · rintro ⟨t', ht', h1⟩
          rcases List.mem_cons.mp ht' with heq | hm
          · exact absurd (heq ▸ hlen) h1
          · exact ⟨t', hm, h1⟩
      rcases hg : getFeat rules t.1 t.2.1 with _ | old
      · rw [insertTriple_of_none rules t hg, mapE_ok, bindE_ok]
        have hrest := (consistent_cons_addPair rules t rest hg).mp ⟨hfc, hso⟩
        exact hiff _ (ih (addPair rules t.1 t.2.1 t.2.2) d hrest.1 hrest.2)
      · have hold : old = t.2.2 :=
          (hso t.1 t.2.1 old hg t (List.mem_cons_self _ _) rfl rfl).symm
        have hsome : getFeat rules t.1 t.2.1 = some t.2.2 := by rw [hg, hold]
        rw [insertTriple_of_eq rules t hsome, mapE_ok, bindE_ok]
        have hrest := (consistent_cons_same rules t rest hsome).mp ⟨hfc, hso⟩
        exact hiff _ (ih rules d hrest.1 hrest.2)
    · rw [if_neg hlen, bindE_error]
      apply iff_of_true rfl
      exact ⟨t, List.mem_cons_self _ _, hlen⟩

lemma denseFold_feat_err {R : Type u} [DecidableEq R] :
    ∀ (inp : List (Triple R)) (rules : Rules R) (d : Nat),
      (∀ t ∈ inp, t.2.2.length = d) →
      (List.foldlM denseStep (some d, rules) inp = .error .featureMismatch ↔
        ¬ (FeatConsistent inp ∧ StoredOK rules inp)) := by
  intro inp
  induction inp with
  | nil =>
    intro rules d _
    rw [List.foldlM_nil]
    apply iff_of_false
    · intro h
      cases h
    · intro hn
      apply hn
      constructor
      · intro t1 h1
        cases h1
      · intro x r f _ t' ht'
        cases ht'
  | cons t rest ih =>
    intro rules d hdim
    have hlen : t.2.2.length = d := hdim t (List.mem_cons_self _ _)
    have hdim' : ∀ t' ∈ rest, t'.2.2.length = d :=
      fun t' ht' => hdim t' (List.mem_cons_of_mem _ ht')
    rw [List.foldlM_cons, denseStep_some, if_pos hlen]
    rcases hg : getFeat rules t.1 t.2.1 with _ | old
    · rw [insertTriple_of_none rules t hg, mapE_ok, bindE_ok]
      rw [ih (addPair rules t.1 t.2.1 t.2.2) d hdim']
      exact not_congr (consistent_cons_addPair rules t rest hg).symm
    · by_cases hold : old = t.2.2
      · have hsome : getFeat rules t.1 t.2.1 = some t.2.2 := by rw [hg, hold]
        rw [insertTriple_of_eq rules t hsome, mapE_ok, bindE_ok]
        rw [ih rules d hdim']
        exact not_congr (consistent_cons_same rules t rest hsome).symm
      · rw [insertTriple_of_ne rules t old hg hold, mapE_error, bindE_error]
        apply iff_of_true rfl
        rintro ⟨hfc, hso⟩
        exact hold ((hso t.1 t.2.1 old hg t (List.mem_cons_self _ _) rfl rfl).symm)

lemma denseFold_ok_exists {R : Type u} [DecidableEq R] :
    ∀ (inp : List (Triple R)) (rules : Rules R) (d : Nat),
      (∀ t ∈ inp, t.2.2.length = d) → FeatConsistent inp → StoredOK rules inp →
      ∃ rules', List.foldlM denseStep (some d, rules) inp = .ok (some d, rules') := by
  intro inp
  induction inp with
  | nil =>
    intro rules d _ _ _
    exact ⟨rules, by rw [List.foldlM_nil]; rfl⟩
  | cons t rest ih =>
    intro rules d hdim hfc hso
    have hlen : t.2.2.length = d := hdim t (List.mem_cons_self _ _)
    have hdim' : ∀ t' ∈ rest, t'.2.2.length = d :=
      fun t' ht' => hdim t' (List.mem_cons_of_mem _ ht')
    rw [List.foldlM_cons, denseStep_some, if_pos hlen]
    rcases hg : getFeat rules t.1 t.2.1 with _ | old
    · rw [insertTriple_of_none rules t hg, mapE_ok, bindE_ok]
      have hrest := (consistent_cons_addPair rules t rest hg).mp ⟨hfc, hso⟩
      exact ih (addPair rules t.1 t.2.1 t.2.2) d hdim' hrest.1 hrest.2
    · have hold : old = t.2.2 :=
        (hso t.1 t.2.1 old hg t (List.mem_cons_self _ _) rfl rfl).symm
      have hsome : getFeat rules t.1 t.2.1 = some t.2.2 := by rw [hg, hold]
      rw [insertTriple_of_eq rules t hsome, mapE_ok, bindE_ok]
      have hrest := (consistent_cons_same rules t rest hsome).mp ⟨hfc, hso⟩
      exact ih rules d hdim' hrest.1 hrest.2

lemma denseInit_cons {R : Type u} [DecidableEq R] (t : Triple R) (rest : List (Triple R)) :
    denseInit (t :: rest) =
      List.foldlM denseStep (some t.2.2.length, [(t.1, [(t.2.1, t.2.2)])]) rest := by
  rw [denseInit, List.foldlM_cons]
  have hstep : denseStep ((none : Option Nat), ([] : Rules R)) t =
      .ok (some t.2.2.length, [(t.1, [(t.2.1, t.2.2)])]) := rfl
  rw [hstep, bindE_ok]

/-- Counterexample for C10 as stated: querying rhss at the never-observed
LHS "X" mutates the dense model's rule table (the defaultdict inserts an
empty row), so lhss() afterwards contains "X". -/
theorem dense_query_mutates_cex :
    lhssDense ((rhssDense [(("S" : Lhs), [((["A"] : Rhs), ([1] : List ℚ))])] "X").2) =
      ["S", "X"] ∧
    lhssDense [(("S" : Lhs), [((["A"] : Rhs), ([1] : List ℚ))])] = ["S"] :=
  ⟨rfl, rfl⟩

/-- C10 amended: queries at an LHS present in lhss() leave the dense
model's rule table unchanged (and lhss() itself, probs_from_model,
loglikelihood and loglhdgrad are pure functions of the table in this
embedding); but rhss or featvec at a never-observed LHS appends an empty
row for it to the table, so lhss() afterwards additionally contains that
LHS. -/
theorem dense_query_frame_amended {R : Type u} [DecidableEq R] (st : Rules R)
    (x : Lhs) (r : Rhs) :
    (x ∈ lhssDense st →
      (rhssDense st x).2 = st ∧ (featvecDense st x r).2 = st) ∧
    (x ∉ lhssDense st →
      (rhssDense st x).2 = st ++ [(x, [])] ∧
      (featvecDense st x r).2 = st ++ [(x, [])] ∧
      lhssDense ((rhssDense st x).2) = lhssDense st ++ [x]) := by
  constructor
  · intro hx
    have hsome : (alookup st x).isSome := by
      rw [alookup_isSome_iff]
      exact hx
    rcases h : alookup st x with _ | row
    · rw [h] at hsome
      cases hsome
    · rw [rhssDense, featvecDense, h]
      exact ⟨rfl, rfl⟩
  · intro hx
    have hnone : alookup st x = none := by
      rw [alookup_eq_none]
      exact hx
    rw [rhssDense, featvecDense, hnone]
    refine ⟨rfl, rfl, ?_⟩
    rw [lhssDense, lhssDense, List.map_append]
    rfl

/-- Witness for the amended C10: at the observed LHS "S" the table is
unchanged; the theorem applies at a concrete table. -/
theorem dense_query_frame_amended_witness :
    (rhssDense [(("S" : Lhs), [((["A"] : Rhs), ([1] : List ℚ))])] "S").2 =
      [(("S" : Lhs), [((["A"] : Rhs), ([1] : List ℚ))])] :=
  ((dense_query_frame_amended [(("S" : Lhs), [((["A"] : Rhs), ([1] : List ℚ))])]
    "S" ["A"]).1 (by simp [lhssDense])).1

/-- Counterexample for C7 as stated: rhss at a never-observed LHS does not
fail with any error in either variant; it returns the empty set (the
dense defaultdict yields an empty row, the indicator comprehension
filters to nothing). -/
theorem rhss_unknown_cex :
    (rhssDense [(("S" : Lhs), [((["A"] : Rhs), ([1] : List ℚ))])] "X").1 = [] ∧
    rhssBasic [("S", ["A"])] "X" = [] :=
  ⟨rfl, rfl⟩

/-- C7 amended: for a successfully constructed dense model, rhss(lhs)
returns the RHS sequences recorded for that LHS in the input (no error is
raised for an unknown LHS: the result is the empty set); likewise the
indicator variant returns the RHSs paired with that LHS in its rule list,
and the empty set for an LHS appearing in no rule. -/
theorem rhss_unknown_amended {R : Type u} [DecidableEq R] (inp : List (Triple R))
    (dOpt : Option Nat) (rules : Rules R) (hsucc : denseInit inp = .ok (dOpt, rules))
    (rl : List Rule) (x : Lhs) :
    ((∀ t ∈ inp, t.1 ≠ x) → (rhssDense rules x).1 = []) ∧
    (∀ y, y ∈ (rhssDense rules x).1 ↔ ∃ t ∈ inp, t.1 = x ∧ t.2.1 = y) ∧
    ((∀ p ∈ rl, p.1 ≠ x) → rhssBasic rl x = []) ∧
    (∀ y, y ∈ rhssBasic rl x ↔ (x, y) ∈ rl) := by
  obtain ⟨featiff, keysiff, _⟩ :=
    denseFold_ok_spec inp ((none : Option Nat), ([] : Rules R)) (dOpt, rules) hsucc
  have hkeys : ∀ z, z ∈ lhssDense rules ↔ ∃ t ∈ inp, t.1 = z := by
    intro z
    rw [keysiff z]
    constructor
    · rintro (h | h)
      · cases h
      · exact h
    · exact Or.inr
  have hfeat : ∀ z r, (getFeat rules z r).isSome ↔ ∃ t ∈ inp, t.1 = z ∧ t.2.1 = r := by
    intro z r
    rw [featiff z r]
    constructor
    · rintro (h | h)
      · rw [getFeat] at h
        simp only [alookup] at h
        cases h
      · exact h
    · exact Or.inr
  refine ⟨?_, ?_, ?_, ?_⟩
  · intro hno
    have hx : x ∉ lhssDense rules := by
      intro hmem
      obtain ⟨t, ht, hteq⟩ := (hkeys x).mp hmem
      exact hno t ht hteq
    have hnone : alookup rules x = none := by
      rw [alookup_eq_none]
      exact hx
    rw [rhssDense, hnone]
  · intro y
    rcases h : alookup rules x with _ | row
    · rw [rhssDense, h]
      simp only [List.not_mem_nil, false_iff]
      rintro ⟨t, ht, h1, h2⟩
      have : (getFeat rules x y).isSome := (hfeat x y).mpr ⟨t, ht, h1, h2⟩
      rw [getFeat, h] at this
      cases this
    · rw [rhssDense, h]
      simp only
      rw [← alookup_isSome_iff]
      have : (getFeat rules x y).isSome ↔ (alookup row y).isSome := by
        rw [getFeat, h]
        rfl
      rw [← this]
      exact hfeat x y
  · intro hno
    rw [rhssBasic]
    have hfil : rl.filter (fun p => decide (p.1 = x)) = [] := by
      rw [List.filter_eq_nil_iff]
      intro p hp
      simp only [decide_eq_true_eq]
      exact hno p hp
    rw [hfil]
    rfl
  · intro y
    rw [rhssBasic, List.mem_dedup, List.mem_map]
    constructor
    · rintro ⟨p, hp, hsnd⟩
      rw [List.mem_filter] at hp
      have h1 : p.1 = x := by simpa using hp.2
      have : p = (x, y) := by
        rw [Prod.ext_iff]
        exact ⟨h1, hsnd⟩
      rw [← this]
      exact hp.1
    · intro hmem
      refine ⟨(x, y), ?_, rfl⟩
      rw [List.mem_filter]
      exact ⟨hmem, by simp⟩

/-- Witness for the amended C7: rhss at the unobserved LHS "X" of a
concretely constructed one-rule dense model returns the empty set. -/
theorem rhss_unknown_amended_witness :
    (rhssDense [(("S" : Lhs), [((["A"] : Rhs), ([1] : List ℚ))])] "X").1 =
      ([] : List Rhs) :=
  (rhss_unknown_amended [(("S" : Lhs), (["A"] : Rhs), ([1] : List ℚ))]
    (some 1) [(("S" : Lhs), [((["A"] : Rhs), ([1] : List ℚ))])] rfl [] "X").1
    (by decide)

instance featConsistentDecidable {R : Type u} [DecidableEq R] (inp : List (Triple R)) :
    Decidable (FeatConsistent inp) := by
  unfold FeatConsistent
  infer_instance

/-- Counterexample for C5 as stated: an input whose feature-vector lengths
all agree (both are 2), yet construction does not succeed — it fails at
the feature-mismatch checkpoint because the pair ("S", ["A"]) repeats with
a different vector.  So "fails with DimensionMismatchError iff some triple
differs in length, otherwise succeeds" is false without a
feature-consistency proviso. -/
theorem denseInit_dim_iff_cex :
    denseInit [(("S" : Lhs), (["A"] : Rhs), ([1, 0] : List ℚ)),
        ("S", ["A"], ([1, 1] : List ℚ))] = .error .featureMismatch ∧
    ([(("S" : Lhs), (["A"] : Rhs), ([1, 0] : List ℚ)),
        ("S", ["A"], ([1, 1] : List ℚ))].map (fun t => t.2.2.length)) = [2, 2] :=
  ⟨rfl, rfl⟩

/-- C5 amended: for every nonempty input in which every repeated
(lhs, rhs) pair carries element-wise equal feature vectors, construction
fixes dim to the first triple's vector length, fails at the
dimension-mismatch checkpoint iff some triple's vector length differs
from it, and otherwise succeeds with that dim. -/
theorem denseInit_dim_iff_amended {R : Type u} [DecidableEq R] (t0 : Triple R)
    (rest : List (Triple R)) (hfc : FeatConsistent (t0 :: rest)) :
    (denseInit (t0 :: rest) = .error .dimensionMismatch ↔
      ∃ t ∈ t0 :: rest, t.2.2.length ≠ t0.2.2.length) ∧
    ((∀ t ∈ t0 :: rest, t.2.2.length = t0.2.2.length) →
      ∃ rules, denseInit (t0 :: rest) = .ok (some t0.2.2.length, rules)) := by
  have hnil : getFeat ([] : Rules R) t0.1 t0.2.1 = none := rfl
  have hrest := (consistent_cons_addPair ([] : Rules R) t0 rest hnil).mp
    ⟨hfc, storedOK_nil _⟩
  have hrules0 : addPair ([] : Rules R) t0.1 t0.2.1 t0.2.2 =
      [(t0.1, [(t0.2.1, t0.2.2)])] := rfl
  rw [hrules0] at hrest
  constructor
  · rw [denseInit_cons]
    rw [denseFold_dim_err rest [(t0.1, [(t0.2.1, t0.2.2)])] t0.2.2.length
      hrest.1 hrest.2]
    constructor
    · rintro ⟨t, ht, h1⟩
      exact ⟨t, List.mem_cons_of_mem _ ht, h1⟩
    · rintro ⟨t, ht, h1⟩
      rcases List.mem_cons.mp ht with heq | hm
      · exact absurd (by rw [heq]) h1
      · exact ⟨t, hm, h1⟩
  · intro hdim
    obtain ⟨rules', hfold⟩ := denseFold_ok_exists rest [(t0.1, [(t0.2.1, t0.2.2)])]
      t0.2.2.length (fun t' ht' => hdim t' (List.mem_cons_of_mem _ ht'))
      hrest.1 hrest.2
    exact ⟨rules', by rw [denseInit_cons]; exact hfold⟩

/-- Witness for the amended C5: a feature-consistent input mixing a
2-dimensional and a 1-dimensional vector fails at the dimension-mismatch
checkpoint. -/
theorem denseInit_dim_iff_amended_witness :
    denseInit [(("S" : Lhs), (["A"] : Rhs), ([1, 0] : List ℚ)),
        ("S", ["B"], ([1] : List ℚ))] = .error .dimensionMismatch :=
  ((denseInit_dim_iff_amended (("S" : Lhs), (["A"] : Rhs), ([1, 0] : List ℚ))
    [("S", ["B"], ([1] : List ℚ))] (by decide)).1).mpr
    ⟨("S", ["B"], ([1] : List ℚ)), by decide, by decide⟩

/-- C6: for inputs of uniform feature-vector dimension, construction fails
at the feature-mismatch checkpoint iff some (lhs, rhs) pair occurs in two
triples with unequal feature vectors; when every repeat is equal,
construction succeeds (with dim the first triple's length) and the rule
table stores exactly one feature-vector entry per rule occurring in the
input. -/
theorem denseInit_feature_mismatch_iff {R : Type u} [DecidableEq R]
    (inp : List (Triple R)) (d : Nat) (hdim : ∀ t ∈ inp, t.2.2.length = d) :
    (denseInit inp = .error .featureMismatch ↔ ¬ FeatConsistent inp) ∧
    (FeatConsistent inp →
      ∃ rules, denseInit inp = .ok (inp.head?.map (fun t => t.2.2.length), rules) ∧
        ∀ t ∈ inp, countEntries rules t.1 t.2.1 = 1) := by
  match inp with
  | [] =>
    constructor
    · apply iff_of_false
      · intro h
        cases h
      · intro hn
        exact hn (fun t1 h1 => absurd h1 (List.not_mem_nil t1))
    · intro _
      refine ⟨[], rfl, ?_⟩
      intro t ht
      cases ht
  | t0 :: rest =>
    have hlen0 : t0.2.2.length = d := hdim t0 (List.mem_cons_self _ _)
    have hdim' : ∀ t' ∈ rest, t'.2.2.length = t0.2.2.length :=
      fun t' ht' => by rw [hdim t' (List.mem_cons_of_mem _ ht'), hlen0]
    have hnil : getFeat ([] : Rules R) t0.1 t0.2.1 = none := rfl
    have hrules0 : addPair ([] : Rules R) t0.1 t0.2.1 t0.2.2 =
        [(t0.1, [(t0.2.1, t0.2.2)])] := rfl
    have hccons := consistent_cons_addPair ([] : Rules R) t0 rest hnil
    rw [hrules0] at hccons
    have hfciff : FeatConsistent (t0 :: rest) ↔
        (FeatConsistent rest ∧ StoredOK [(t0.1, [(t0.2.1, t0.2.2)])] rest) := by
      constructor
      · intro hfc
        exact hccons.mp ⟨hfc, storedOK_nil _⟩
      · intro h
        exact (hccons.mpr h).1
    constructor
    · rw [denseInit_cons]
      rw [denseFold_feat_err rest [(t0.1, [(t0.2.1, t0.2.2)])] t0.2.2.length hdim']
      exact (not_congr hfciff).symm
    · intro hfc
      have hrest := hfciff.mp hfc
      obtain ⟨rules', hfold⟩ := denseFold_ok_exists rest [(t0.1, [(t0.2.1, t0.2.2)])]
        t0.2.2.length hdim' hrest.1 hrest.2
      obtain ⟨featiff, _, hnodup⟩ := denseFold_ok_spec rest
        (some t0.2.2.length, [(t0.1, [(t0.2.1, t0.2.2)])])
        (some t0.2.2.length, rules') hfold
      have hnd0 : NodupKeys ([(t0.1, [(t0.2.1, t0.2.2)])] : Rules R) := by
        constructor
        · simp
        · intro lr hlr
          rcases List.mem_singleton.mp hlr with rfl
          simp
      refine ⟨rules', by rw [denseInit_cons]; exact hfold, ?_⟩
      intro t ht
      apply countEntries_eq_one rules' t.1 t.2.1 (hnodup hnd0)
      rw [featiff t.1 t.2.1]
      rcases List.mem_cons.mp ht with heq | hm
      · left
        subst heq
        simp [getFeat, alookup]
      · exact Or.inr ⟨t, hm, rfl, rfl⟩

/-- Witness for C6 at the spec's own example: two records for LHS "S",
RHS "A" with differing vectors [1,0] and [1,1] fail at the
feature-mismatch checkpoint. -/
theorem denseInit_feature_mismatch_iff_witness :
    denseInit [(("S" : Lhs), (["A"] : Rhs), ([1, 0] : List ℚ)),
        ("S", ["A"], ([1, 1] : List ℚ))] = .error .featureMismatch :=
  ((denseInit_feature_mismatch_iff
    [(("S" : Lhs), (["A"] : Rhs), ([1, 0] : List ℚ)), ("S", ["A"], ([1, 1] : List ℚ))]
    2 (by decide)).1).mpr
    (by
      intro hfc
      have := hfc (("S" : Lhs), (["A"] : Rhs), ([1, 0] : List ℚ)) (by decide)
        (("S" : Lhs), (["A"] : Rhs), ([1, 1] : List ℚ)) (by decide) rfl rfl
      simp at this)

lemma zip_map_self {α : Type u} {β : Type v} (l : List α) (f : α → β) :
    l.zip (l.map f) = l.map (fun a => (a, f a)) := by
  induction l with
  | nil => rfl
  | cons a t ih => simp [ih]

lemma sum_map_div {α : Type u} (l : List α) (f : α → ℝ) (c : ℝ) :
    (l.map (fun a => f a / c)).sum = (l.map f).sum / c := by
  induction l with
  | nil => simp
  | cons a t ih => simp [ih, add_div]

lemma probRow_eq (m : LLModel) (w : List ℝ) (x : Lhs) :
    probRow m w x = (m.rhss x).map (fun y => (y, prob m w x y)) := by
  simp only [probRow, List.map_map]
  rw [zip_map_self]
  apply List.map_congr_left
  intro y hy
  simp only [prob, maxScore, expSum, List.map_map]
  rfl

lemma expSum_pos (m : LLModel) (w : List ℝ) (x : Lhs) (hne : m.rhss x ≠ []) :
    0 < expSum m w x := by
  rw [expSum]
  apply List.sum_pos
  · intro a ha
    obtain ⟨y, _, rfl⟩ := List.mem_map.mp ha
    exact Real.exp_pos _
  · intro hmap
    exact hne (List.map_eq_nil_iff.mp hmap)

lemma prob_nonneg (m : LLModel) (w : List ℝ) (x : Lhs) (y : Rhs)
    (hne : m.rhss x ≠ []) : 0 ≤ prob m w x y :=
  div_nonneg (Real.exp_pos _).le (expSum_pos m w x hne).le

lemma prob_le_one (m : LLModel) (w : List ℝ) (x : Lhs) (y : Rhs)
    (hy : y ∈ m.rhss x) : prob m w x y ≤ 1 := by
  rw [prob, div_le_one (expSum_pos m w x (List.ne_nil_of_mem hy))]
  rw [expSum]
  apply List.single_le_sum
  · intro a ha
    obtain ⟨y', _, rfl⟩ := List.mem_map.mp ha
    exact (Real.exp_pos _).le
  · exact List.mem_map_of_mem _ hy

lemma prob_sum_one (m : LLModel) (w : List ℝ) (x : Lhs) (hne : m.rhss x ≠ []) :
    ((m.rhss x).map (fun y => prob m w x y)).sum = 1 := by
  have hpos := expSum_pos m w x hne
  simp only [prob]
  rw [sum_map_div]
  rw [← expSum]
  exact div_self (ne_of_gt hpos)

/-- C1: for every feature model whose every LHS has at least one candidate
RHS, and every weight vector, every row of the table built by
probs_from_model assigns each (LHS, RHS) pair a probability in [0, 1], and
the probabilities of a row sum to 1 within tolerance 1e-9 (over exact real
arithmetic they sum to exactly 1); each probability is the max-shifted
exponentiated score divided by the sum of the shifted exponentiated
scores of that LHS. -/
theorem probs_rows_are_distributions (m : LLModel) (w : List ℝ)
    (hne : ∀ x ∈ m.lhss, m.rhss x ≠ []) (x : Lhs) (row : List (Rhs × ℝ))
    (hmem : (x, row) ∈ probs_from_model m w) :
    (∀ yp ∈ row, 0 ≤ yp.2 ∧ yp.2 ≤ 1) ∧
    |(row.map Prod.snd).sum - 1| ≤ 1 / 1000000000 := by
  rw [probs_from_model] at hmem
  obtain ⟨x', hx', heq⟩ := List.mem_map.mp hmem
  simp only [Prod.mk.injEq] at heq
  obtain ⟨rfl, rfl⟩ := heq
  have hnex := hne x' hx'
  rw [probRow_eq]
  constructor
  · intro yp hyp
    obtain ⟨y, hy, rfl⟩ := List.mem_map.mp hyp
    exact ⟨prob_nonneg m w x' y hnex, prob_le_one m w x' y hy⟩
  · rw [List.map_map]
    have hfun : (Prod.snd ∘ fun y => (y, prob m w x' y)) = fun y => prob m w x' y := rfl
    rw [hfun, prob_sum_one m w x' hnex]
    norm_num

/-- Concrete single-rule model used to witness the probability and
gradient theorems: one LHS "S" with the single RHS ["A"], one feature. -/
def exModel : LLModel where
  lhss := ["S"]
  rhss := fun _ => [["A"]]
  dim := 1
  featvec := fun _ _ => [1]
  featvec_dot := fun _ _ v => dotList v [1]

/-- Witness for C1 at the concrete model and the zero weight vector. -/
theorem probs_rows_are_distributions_witness :
    |(((probRow exModel [0] "S").map Prod.snd).sum) - 1| ≤ 1 / 1000000000 :=
  (probs_rows_are_distributions exModel [0]
    (fun x _ => by simp [exModel]) "S" (probRow exModel [0] "S")
    (by simp [probs_from_model, exModel])).2

lemma logprobE_of_ne (p : ℝ) (hp : p ≠ 0) : logprobE p = .ok (Real.log p) := by
  rw [logprobE, if_neg hp]

lemma logprobE_of_eq (p : ℝ) (hp : p = 0) : logprobE p = .error () := by
  rw [logprobE, if_pos hp]

lemma llInner_mapM_ok (probAt : Lhs → Rhs → ℝ) (x : Lhs) (d : List (Rhs × Int))
    (h : ∀ yf ∈ d, probAt x yf.1 ≠ 0) :
    (d.mapM (fun yf => (logprobE (probAt x yf.1)).map (fun lp => (yf.2 : ℝ) * lp))) =
      .ok (d.map (fun yf => (yf.2 : ℝ) * Real.log (probAt x yf.1))) := by
  induction d with
  | nil => rfl
  | cons yf d' ih =>
    rw [List.mapM_cons, logprobE_of_ne _ (h yf (List.mem_cons_self _ _)), mapE_ok,
      bindE_ok, ih (fun yf' hyf' => h yf' (List.mem_cons_of_mem _ hyf')), bindE_ok]
    rfl

lemma llInner_ok (probAt : Lhs → Rhs → ℝ) (x : Lhs) (d : List (Rhs × Int))
    (h : ∀ yf ∈ d, probAt x yf.1 ≠ 0) :
    llInner probAt x d =
      .ok ((d.map (fun yf => (yf.2 : ℝ) * Real.log (probAt x yf.1))).sum) := by
  rw [llInner, llInner_mapM_ok probAt x d h, mapE_ok]

lemma llInner_err (probAt : Lhs → Rhs → ℝ) (x : Lhs) (d : List (Rhs × Int))
    (h : ∃ yf ∈ d, probAt x yf.1 = 0) :
    llInner probAt x d = .error () := by
  induction d with
  | nil =>
    obtain ⟨yf, hyf, _⟩ := h
    cases hyf
  | cons yf d' ih =>
    by_cases h0 : probAt x yf.1 = 0
    · rw [llInner, List.mapM_cons, logprobE_of_eq _ h0, mapE_error, bindE_error,
        mapE_error]
    · obtain ⟨yf', hyf', hz⟩ := h
      have hyf'd : yf' ∈ d' := by
        rcases List.mem_cons.mp hyf' with heq | hm
        · exact absurd (heq ▸ hz) h0
        · exact hm
      have ihe := ih ⟨yf', hyf'd, hz⟩
      rw [llInner] at ihe
      rcases hmm : (d'.mapM (fun yf =>
          (logprobE (probAt x yf.1)).map (fun lp => (yf.2 : ℝ) * lp))) with e | lst
      · rw [llInner, List.mapM_cons, logprobE_of_ne _ h0, mapE_ok, bindE_ok, hmm,
          bindE_error, mapE_error]
      · rw [hmm, mapE_ok] at ihe
        cases ihe

lemma llTry_go_ok (probAt : Lhs → Rhs → ℝ) (td : FreqTable)
    (h : ∀ xd ∈ td, ∀ yf ∈ xd.2, probAt xd.1 yf.1 ≠ 0) :
    ∀ acc : ℝ,
      td.foldlM (fun ll xd => (llInner probAt xd.1 xd.2).map (fun s => ll + s)) acc =
        .ok (acc + (td.map (fun xd =>
          (xd.2.map (fun yf => (yf.2 : ℝ) * Real.log (probAt xd.1 yf.1))).sum)).sum) := by
  induction td with
  | nil =>
    intro acc
    rw [List.foldlM_nil]
    simp
    rfl
  | cons xd td' ih =>
    intro acc
    rw [List.foldlM_cons, llInner_ok probAt xd.1 xd.2 (h xd (List.mem_cons_self _ _)),
      mapE_ok, bindE_ok,
      ih (fun xd' hxd' => h xd' (List.mem_cons_of_mem _ hxd')),
      List.map_cons, List.sum_cons, add_assoc]

lemma llTry_err (probAt : Lhs → Rhs → ℝ) (td : FreqTable)
    (h : ∃ xd ∈ td, ∃ yf ∈ xd.2, probAt xd.1 yf.1 = 0) :
    ∀ acc : ℝ,
      td.foldlM (fun ll xd => (llInner probAt xd.1 xd.2).map (fun s => ll + s)) acc =
        .error () := by
  induction td with
  | nil =>
    obtain ⟨xd, hxd, _⟩ := h
    cases hxd
  | cons xd td' ih =>
    intro acc
    by_cases h0 : ∃ yf ∈ xd.2, probAt xd.1 yf.1 = 0
    · rw [List.foldlM_cons, llInner_err probAt xd.1 xd.2 h0, mapE_error, bindE_error]
    · push_neg at h0
      rw [List.foldlM_cons, llInner_ok probAt xd.1 xd.2 h0, mapE_ok, bindE_ok]
      apply ih
      obtain ⟨xd', hxd', yf', hyf', hz⟩ := h
      rcases List.mem_cons.mp hxd' with heq | hm
      · subst heq
        exact absurd hz (h0 yf' hyf')
      · exact ⟨xd', hm, yf', hyf', hz⟩

/-- C2: the log-likelihood routine is a total function: over any
probability table, if some probability referenced by a frequency-table
entry is exactly zero it returns the numeric floor (the most negative
finite double, np.finfo float min) as the whole log-likelihood with the
internal exception caught, and otherwise it returns the sum over
(lhs, rhs, freq) entries of freq * log(prob(lhs, rhs)); the model-level
loglikelihood is exactly this routine run on the table of
probs_from_model at the same weights. -/
theorem loglikelihood_zero_floor_total (probAt : Lhs → Rhs → ℝ) (td : FreqTable) :
    ((∃ xd ∈ td, ∃ yf ∈ xd.2, probAt xd.1 yf.1 = 0) →
      loglikelihoodAux probAt td = floatMin) ∧
    ((∀ xd ∈ td, ∀ yf ∈ xd.2, probAt xd.1 yf.1 ≠ 0) →
      loglikelihoodAux probAt td =
        (td.map (fun xd =>
          (xd.2.map (fun yf => (yf.2 : ℝ) * Real.log (probAt xd.1 yf.1))).sum)).sum) ∧
    (∀ (m : LLModel) (w : List ℝ), loglikelihood m td w = loglikelihoodAux (prob m w) td) := by
  refine ⟨?_, ?_, fun m w => rfl⟩
  · intro h
    rw [loglikelihoodAux, llTry, llTry_err probAt td h 0]
  · intro h
    have hok := llTry_go_ok probAt td h 0
    rw [zero_add] at hok
    rw [loglikelihoodAux, llTry, hok]

/-- Witness for C2: a frequency table referencing a zero probability makes
the log-likelihood collapse to the numeric floor. -/
theorem loglikelihood_zero_floor_total_witness :
    loglikelihoodAux (fun _ _ => (0 : ℝ)) [("S", [(["A"], 3)])] = floatMin :=
  (loglikelihood_zero_floor_total (fun _ _ => (0 : ℝ)) [("S", [(["A"], 3)])]).1
    ⟨("S", [(["A"], 3)]), List.mem_singleton.mpr rfl, (["A"], 3),
      List.mem_singleton.mpr rfl, rfl⟩

lemma getD_listZero (n k : Nat) : (listZero n).getD k 0 = 0 := by
  induction n generalizing k with
  | zero => simp [listZero]
  | succ n ih =>
    rw [listZero, List.replicate_succ]
    match k with
    | 0 => rfl
    | k + 1 =>
      rw [List.getD_cons_succ]
      exact ih k

lemma getD_zipWith (f : ℝ → ℝ → ℝ) (hf : f 0 0 = 0) (a b : List ℝ)
    (h : a.length = b.length) (k : Nat) :
    (List.zipWith f a b).getD k 0 = f (a.getD k 0) (b.getD k 0) := by
  induction a generalizing b k with
  | nil =>
    match b with
    | [] => simpa [List.getD] using hf.symm
    | _ :: _ => simp at h
  | cons u a' ih =>
    match b with
    | [] => simp at h
    | v :: b' =>
      rw [List.zipWith_cons_cons]
      match k with
      | 0 => rfl
      | k + 1 =>
        rw [List.getD_cons_succ, List.getD_cons_succ, List.getD_cons_succ]
        exact ih b' (by simpa using h) k

lemma getD_listAdd (a b : List ℝ) (h : a.length = b.length) (k : Nat) :
    (listAdd a b).getD k 0 = a.getD k 0 + b.getD k 0 :=
  getD_zipWith (fun u v => u + v) (by norm_num) a b h k

lemma getD_listSub (a b : List ℝ) (h : a.length = b.length) (k : Nat) :
    (listSub a b).getD k 0 = a.getD k 0 - b.getD k 0 :=
  getD_zipWith (fun u v => u - v) (by norm_num) a b h k

lemma getD_listSmul (c : ℝ) (v : List ℝ) (k : Nat) :
    (listSmul c v).getD k 0 = c * v.getD k 0 := by
  induction v generalizing k with
  | nil => simp [listSmul]
  | cons u v' ih =>
    rw [listSmul, List.map_cons]
    match k with
    | 0 => rfl
    | k + 1 =>
      rw [List.getD_cons_succ, List.getD_cons_succ]
      exact ih k

lemma length_listAdd (a b : List ℝ) (h : a.length = b.length) :
    (listAdd a b).length = a.length := by
  rw [listAdd, List.length_zipWith, ← h, Nat.min_self]

lemma length_listSub (a b : List ℝ) (h : a.length = b.length) :
    (listSub a b).length = a.length := by
  rw [listSub, List.length_zipWith, ← h, Nat.min_self]

lemma length_listSmul (c : ℝ) (v : List ℝ) : (listSmul c v).length = v.length := by
  rw [listSmul, List.length_map]

lemma length_listZero (n : Nat) : (listZero n).length = n := by
  rw [listZero, List.length_replicate]

lemma foldl_listAdd_spec {α : Type u} (g : α → List ℝ) (n : Nat) :
    ∀ (l : List α), (∀ a ∈ l, (g a).length = n) →
      ∀ acc : List ℝ, acc.length = n →
        (l.foldl (fun acc a => listAdd acc (g a)) acc).length = n ∧
        ∀ k, (l.foldl (fun acc a => listAdd acc (g a)) acc).getD k 0 =
          acc.getD k 0 + (l.map (fun a => (g a).getD k 0)).sum := by
  intro l
  induction l with
  | nil =>
    intro _ acc hacc
    rw [List.foldl_nil]
    exact ⟨hacc, fun k => by simp⟩
  | cons a l' ih =>
    intro hg acc hacc
    rw [List.foldl_cons]
    have hab : acc.length = (g a).length := by
      rw [hacc, hg a (List.mem_cons_self _ _)]
    have hlen : (listAdd acc (g a)).length = n := by
      rw [length_listAdd acc (g a) hab, hacc]
    obtain ⟨ih1, ih2⟩ := ih (fun a' ha' => hg a' (List.mem_cons_of_mem _ ha'))
      (listAdd acc (g a)) hlen
    refine ⟨ih1, fun k => ?_⟩
    rw [ih2 k, getD_listAdd acc (g a) hab k, List.map_cons, List.sum_cons]
    ring

lemma expectation_spec (m : LLModel) (w : List ℝ) (x : Lhs)
    (h : ∀ y ∈ m.rhss x, (m.featvec x y).length = m.dim) :
    (expectation m w x).length = m.dim ∧
    ∀ k, (expectation m w x).getD k 0 =
      ((m.rhss x).map (fun y => prob m w x y * (m.featvec x y).getD k 0)).sum := by
  have hg : ∀ y ∈ m.rhss x,
      (listSmul (prob m w x y) (m.featvec x y)).length = m.dim := by
    intro y hy
    rw [length_listSmul, h y hy]
  obtain ⟨h1, h2⟩ := foldl_listAdd_spec
    (fun y => listSmul (prob m w x y) (m.featvec x y)) m.dim (m.rhss x) hg
    (listZero m.dim) (length_listZero m.dim)
  rw [expectation]
  refine ⟨h1, fun k => ?_⟩
  rw [h2 k, getD_listZero, zero_add]
  congr 1
  apply List.map_congr_left
  intro y hy
  rw [getD_listSmul]

lemma loglhdgrad_spec (m : LLModel) (td : FreqTable) (w : List ℝ)
    (hmodel : ∀ x ∈ m.lhss, ∀ y ∈ m.rhss x, (m.featvec x y).length = m.dim)
    (htd : ∀ xd ∈ td, xd.1 ∈ m.lhss ∧
      ∀ yf ∈ xd.2, (m.featvec xd.1 yf.1).length = m.dim) :
    (loglhdgrad m td w).length = m.dim ∧
    ∀ k, (loglhdgrad m td w).getD k 0 =
      (td.map (fun xd => (xd.2.map (fun yf => (yf.2 : ℝ) *
        ((m.featvec xd.1 yf.1).getD k 0 -
          ((m.rhss xd.1).map
            (fun y => prob m w xd.1 y * (m.featvec xd.1 y).getD k 0)).sum))).sum)).sum := by
  suffices hgen : ∀ (td' : FreqTable),
      (∀ xd ∈ td', xd.1 ∈ m.lhss ∧
        ∀ yf ∈ xd.2, (m.featvec xd.1 yf.1).length = m.dim) →
      ∀ acc : List ℝ, acc.length = m.dim →
        ((td'.foldl (fun acc xd => xd.2.foldl (fun acc2 yf =>
            listAdd acc2 (listSmul (yf.2 : ℝ)
              (listSub (m.featvec xd.1 yf.1) (expectation m w xd.1)))) acc)
          acc).length = m.dim ∧
        ∀ k, (td'.foldl (fun acc xd => xd.2.foldl (fun acc2 yf =>
            listAdd acc2 (listSmul (yf.2 : ℝ)
              (listSub (m.featvec xd.1 yf.1) (expectation m w xd.1)))) acc)
          acc).getD k 0 =
          acc.getD k 0 + (td'.map (fun xd => (xd.2.map (fun yf => (yf.2 : ℝ) *
            ((m.featvec xd.1 yf.1).getD k 0 -
              ((m.rhss xd.1).map
                (fun y => prob m w xd.1 y * (m.featvec xd.1 y).getD k 0)).sum))).sum)).sum) by
    obtain ⟨h1, h2⟩ := hgen td htd (listZero m.dim) (length_listZero m.dim)
    rw [loglhdgrad]
    refine ⟨h1, fun k => ?_⟩
    rw [h2 k, getD_listZero, zero_add]
  intro td'
  induction td' with
  | nil =>
    intro _ acc hacc
    rw [List.foldl_nil]
    exact ⟨hacc, fun k => by simp⟩
  | cons xd td'' ih =>
    intro htd' acc hacc
    obtain ⟨hx, hfv⟩ := htd' xd (List.mem_cons_self _ _)
    obtain ⟨hElen, hEget⟩ := expectation_spec m w xd.1 (hmodel xd.1 hx)
    have hglen : ∀ yf ∈ xd.2, (listSmul (yf.2 : ℝ)
        (listSub (m.featvec xd.1 yf.1) (expectation m w xd.1))).length = m.dim := by
      intro yf hyf
      rw [length_listSmul, length_listSub _ _ (by rw [hfv yf hyf, hElen]), hfv yf hyf]
    obtain ⟨hinlen, hinget⟩ := foldl_listAdd_spec
      (fun yf => listSmul (yf.2 : ℝ)
        (listSub (m.featvec xd.1 yf.1) (expectation m w xd.1)))
      m.dim xd.2 hglen acc hacc
    rw [List.foldl_cons]
    obtain ⟨ih1, ih2⟩ := ih (fun xd' hxd' => htd' xd' (List.mem_cons_of_mem _ hxd'))
      (xd.2.foldl (fun acc2 yf => listAdd acc2 (listSmul (yf.2 : ℝ)
        (listSub (m.featvec xd.1 yf.1) (expectation m w xd.1)))) acc) hinlen
    refine ⟨ih1, fun k => ?_⟩
    rw [ih2 k, hinget k, List.map_cons, List.sum_cons, add_assoc]
    congr 2
    congr 1
    apply List.map_congr_left
    intro yf hyf
    rw [getD_listSmul, getD_listSub _ _ (by rw [hfv yf hyf, hElen]) k, hEget k]

/-- C3: each component of the gradient handed to the minimizer by train
equals lambda times the weight component minus the log-likelihood gradient
component, where the latter is the sum over frequency-table entries
(lhs, rhs, freq) of freq times (the rule's feature component minus the
expectation over the LHS's candidate RHSs of their feature components
weighted by the probabilities of probs_from_model at the same weights). -/
theorem trainGradient_formula (m : LLModel) (td : FreqTable) (lam : ℝ) (w : List ℝ)
    (hw : w.length = m.dim)
    (hmodel : ∀ x ∈ m.lhss, ∀ y ∈ m.rhss x, (m.featvec x y).length = m.dim)
    (htd : ∀ xd ∈ td, xd.1 ∈ m.lhss ∧
      ∀ yf ∈ xd.2, (m.featvec xd.1 yf.1).length = m.dim)
    (k : Nat) :
    (trainGradient m td lam w).getD k 0 =
      lam * w.getD k 0 -
        (td.map (fun xd => (xd.2.map (fun yf => (yf.2 : ℝ) *
          ((m.featvec xd.1 yf.1).getD k 0 -
            ((m.rhss xd.1).map
              (fun y => prob m w xd.1 y * (m.featvec xd.1 y).getD k 0)).sum))).sum)).sum := by
  obtain ⟨hglen, hgget⟩ := loglhdgrad_spec m td w hmodel htd
  rw [trainGradient, penaltygradList]
  rw [getD_listSub (listSmul lam w) (loglhdgrad m td w)
    (by rw [length_listSmul, hw, hglen]) k]
  rw [getD_listSmul, hgget k]

/-- Witness for C3 at the concrete one-rule model, zero weights, lambda 0,
and a frequency table with one observation: the gradient component is
1 * (1 - P(A|S) * 1) = 0 since the single alternative has probability 1. -/
theorem trainGradient_formula_witness :
    (trainGradient exModel [("S", [(["A"], (1 : Int))])] 0 [0]).getD 0 0 = 0 := by
  have h := trainGradient_formula exModel [("S", [(["A"], (1 : Int))])] 0 [0]
    rfl (fun x _ y _ => rfl)
    (by
      intro xd hxd
      rcases List.mem_singleton.mp hxd with rfl
      exact ⟨by simp [exModel], fun yf _ => rfl⟩)
    0
  rw [h]
  simp [exModel, prob, maxScore, expSum, score, dotList, listMax, Real.exp_zero]
